import Mathlib

/-!
Verification of `glue/sample/src/sinter/_data/_csv_out.py`: a shallow
embedding of `escape_csv`, `csv_line` and `CSV_HEADER` over `List Char`
strings, together with theorems settling the specification claims.

Modelling conventions:
* Python `str` is `List Char` (Unicode code points).
* Python `float` is modelled as `ℚ`: every finite Python float denotes a
  dyadic rational exactly, and `%.Nf` formatting rounds that exact value
  half-to-even, which is what `fmtFixed` below does on the rational.
* The dynamically-typed arguments of `csv_line` are modelled by small sum
  types covering the value domain documented for each field.
* The in-place coercion of `custom_counts` values (a visible side effect on
  the caller's dict) is modelled by state passing: `csv_line` returns the
  final state of the `custom_counts` mapping next to its result.
* Fallible paths (`int(...)` raising) return `Except PyErr`.
-/

namespace CsvOut

/-! ## Characters and low-level string helpers -/

/-- Code points of the characters Python's `str.strip()` (no argument)
removes: exactly the characters for which `str.isspace()` holds. -/
def pyWsCodes : List Nat :=
  [9, 10, 11, 12, 13, 28, 29, 30, 31, 32, 133, 160, 5760,
   8192, 8193, 8194, 8195, 8196, 8197, 8198, 8199, 8200, 8201, 8202,
   8232, 8233, 8239, 8287, 12288]

/-- Python `c.isspace()` for a single character. -/
def isPyWs (c : Char) : Bool := pyWsCodes.contains c.toNat

/-- Python `s.strip()`: drop leading and trailing whitespace characters. -/
def pyStrip (s : List Char) : List Char :=
  ((s.dropWhile isPyWs).reverse.dropWhile isPyWs).reverse

/-- Python `s.rjust(w)`: left-pad with spaces to length at least `w`. -/
def rjust (w : Nat) (s : List Char) : List Char :=
  List.replicate (w - s.length) ' ' ++ s

/-- Concatenation of the images of `f`, used for character-wise escaping. -/
def concatMap (f : α → List β) : List α → List β
  | [] => []
  | a :: t => f a ++ concatMap f t

/-- Decimal digits of `n` accumulated in `acc`; `fuel` bounds recursion
depth so the definition is structural (any `fuel ≥ n` is exact). -/
def natDigitsAux : Nat → Nat → List Char → List Char
  | 0, _, acc => acc
  | fuel + 1, n, acc =>
    if n = 0 then acc
    else natDigitsAux fuel (n / 10) (Char.ofNat (48 + n % 10) :: acc)

/-- Decimal representation of a natural number, as Python `str` renders it. -/
def natDigits (n : Nat) : List Char :=
  if n = 0 then ['0'] else natDigitsAux (n + 1) n []

/-- Python `str(i)` for an int: optional minus sign and decimal digits. -/
def intRepr (i : Int) : List Char :=
  if i < 0 then '-' :: natDigits i.natAbs else natDigits i.natAbs

/-- Lowercase hexadecimal digit for `n < 16`. -/
def hexDigit (n : Nat) : Char :=
  if n < 10 then Char.ofNat (48 + n) else Char.ofNat (87 + n)

/-- Four lowercase hex digits of `n < 65536` (the `\uXXXX` payload). -/
def hex4 (n : Nat) : List Char :=
  [hexDigit (n / 4096 % 16), hexDigit (n / 256 % 16),
   hexDigit (n / 16 % 16), hexDigit (n % 16)]

/-- Python `str` comparison `a <= b`: lexicographic by code point. -/
def strLe : List Char → List Char → Bool
  | [], _ => true
  | _ :: _, [] => false
  | a :: as, b :: bs => if a = b then strLe as bs else decide (a.toNat < b.toNat)

/-! ## The field escaper: `escape_csv` (lines 8-14 of `_csv_out.py`)

`csv.writer(output).writerow([text])` writes one record holding one field
using the default `excel` dialect: delimiter `,`, quote char `"`,
`doublequote=True`, line terminator `"\r\n"`, `QUOTE_MINIMAL`.  Under
`QUOTE_MINIMAL` a field is quoted iff it contains the delimiter, the quote
character, or a character of the line terminator; additionally a record
whose single field is the empty string is written as `""` so that the
record is not an empty line. -/

/-- Does the csv writer quote this single-field record? -/
def needsQuote (s : List Char) : Bool :=
  s.isEmpty || s.any fun c => c = ',' || c = '"' || c = '\r' || c = '\n'

/-- Double every `"` in the field body (the `doublequote=True` rule). -/
def doubleQuotes : List Char → List Char
  | [] => []
  | c :: rest =>
    if c = '"' then '"' :: '"' :: doubleQuotes rest
    else c :: doubleQuotes rest

/-- `csv.writer(output).writerow([text]); output.getvalue()`:
the encoded field followed by the `"\r\n"` record terminator. -/
def csvWriterow (s : List Char) : List Char :=
  (if needsQuote s then '"' :: doubleQuotes s ++ ['"'] else s) ++ ['\r', '\n']

/-- `escape_csv(text, width)` from the source: encode the single field,
`strip()` the result, then right-justify when a width is given. -/
def escape_csv (text : List Char) (width : Option Nat) : List Char :=
  let t := pyStrip (csvWriterow text)
  match width with
  | some w => rjust w t
  | none => t

/-! ## JSON values and `json.dumps(..., separators=(",", ":"), sort_keys=True)`

JSON-serializable values are encoded as a single inductive in which array
elements and object entries are chained through dedicated constructors, so
that every function below is structurally recursive (and hence evaluates
inside the kernel).  Numbers are integers: the repository serializes
mappings of counts, and `custom_counts` values are coerced to `int` before
dumping.  Object keys are strings, as in every dict the repository dumps;
Python dict keys are unique, so theorems about key ordering assume
`Nodup` keys. -/

inductive JVal where
  | null : JVal
  | bool : Bool → JVal
  | int : Int → JVal
  | str : List Char → JVal
  | arrNil : JVal
  | arrCons : JVal → JVal → JVal
  | objNil : JVal
  | objCons : List Char → JVal → JVal → JVal
deriving DecidableEq

/-- Build an object chain from a list of entries (in insertion order). -/
def objOfList : List (List Char × JVal) → JVal
  | [] => .objNil
  | (k, v) :: t => .objCons k v (objOfList t)

/-- Build an array chain from a list of elements. -/
def arrOfList : List JVal → JVal
  | [] => .arrNil
  | v :: t => .arrCons v (arrOfList t)

/-- `json` escaping of one character with `ensure_ascii=True` (the
default): ASCII printables pass through, `"` and backslash and the short
control escapes use two-character forms, everything else becomes `\uXXXX`
(a surrogate pair beyond the BMP). -/
def jsonEscapeChar (c : Char) : List Char :=
  let n := c.toNat
  if n = 34 then ['\\', '"']
  else if n = 92 then ['\\', '\\']
  else if n = 10 then ['\\', 'n']
  else if n = 13 then ['\\', 'r']
  else if n = 9 then ['\\', 't']
  else if n = 8 then ['\\', 'b']
  else if n = 12 then ['\\', 'f']
  else if n < 32 then '\\' :: 'u' :: hex4 n
  else if n < 127 then [c]
  else if n < 65536 then '\\' :: 'u' :: hex4 n
  else ('\\' :: 'u' :: hex4 (55296 + (n - 65536) / 1024)) ++
       ('\\' :: 'u' :: hex4 (56320 + (n - 65536) % 1024))

/-- JSON string literal for `s`. -/
def jsonStr (s : List Char) : List Char :=
  '"' :: concatMap jsonEscapeChar s ++ ['"']

/-- Insert an entry into an object chain that is sorted by key, keeping it
sorted (ascending, Python `sorted` order on distinct keys). -/
def objInsert (k : List Char) (v : JVal) : JVal → JVal
  | .objCons k2 v2 rest =>
    if strLe k k2 then .objCons k v (.objCons k2 v2 rest)
    else .objCons k2 v2 (objInsert k v rest)
  | c => .objCons k v c

/-- Recursively sort every object of a JSON value by key (the effect of
`sort_keys=True`), leaving everything else unchanged. -/
def canon : JVal → JVal
  | .arrCons v rest => .arrCons (canon v) (canon rest)
  | .objCons k v rest => objInsert k (canon v) (canon rest)
  | v => v

/-- Serialize a JSON value with separators `(",", ":")` (no whitespace),
in the stored entry order.  On chain nodes the bracketed text of the tail
loses its opening bracket and gains a separator instead. -/
def dumpRaw : JVal → List Char
  | .null => "null".toList
  | .bool true => "true".toList
  | .bool false => "false".toList
  | .int n => intRepr n
  | .str s => jsonStr s
  | .arrNil => ['[', ']']
  | .arrCons v rest =>
    match rest with
    | .arrNil => '[' :: dumpRaw v ++ [']']
    | _ => '[' :: dumpRaw v ++ ',' :: (dumpRaw rest).tail
  | .objNil => [Char.ofNat 123, Char.ofNat 125]
  | .objCons k v rest =>
    match rest with
    | .objNil => Char.ofNat 123 :: jsonStr k ++ ':' :: dumpRaw v ++ [Char.ofNat 125]
    | _ => Char.ofNat 123 :: jsonStr k ++ ':' :: dumpRaw v ++ ',' :: (dumpRaw rest).tail

/-- `json.dumps(v, separators=(",", ":"), sort_keys=True)`. -/
def jsonDumps (v : JVal) : List Char := dumpRaw (canon v)

/-! ## Python `repr`/`str` of JSON-shaped values

`csv_line` applies `str()` to `json_metadata` and `custom_counts` when
`is_header=True` (they are interpolated raw into the f-string / passed to
the csv writer).  The source only ever does this with plain identifier
strings (the `CSV_HEADER` call), for which `str()` is the identity; the
container cases below model Python `repr` for the value domain of this
file and only exist to keep the functions total. -/

/-- One character of a Python string `repr` body.  `quote` is the code
point of the chosen surrounding quote (39 or 34); that quote, backslash,
and the usual control characters are escaped, other characters of the
repository's identifier-like domain pass through. -/
def pyReprChar (quote : Nat) (c : Char) : List Char :=
  let n := c.toNat
  if n = 92 then ['\\', '\\']
  else if n = quote then [Char.ofNat 92, Char.ofNat quote]
  else if n = 10 then ['\\', 'n']
  else if n = 13 then ['\\', 'r']
  else if n = 9 then ['\\', 't']
  else if n < 32 ∨ n = 127 then ['\\', 'x', hexDigit (n / 16), hexDigit (n % 16)]
  else [c]

/-- Python `repr` of a string: single-quoted, except double-quoted when the
text contains a single quote but no double quote. -/
def pyReprStr (s : List Char) : List Char :=
  if s.contains (Char.ofNat 39) && !(s.contains '"') then
    '"' :: concatMap (pyReprChar 34) s ++ ['"']
  else
    Char.ofNat 39 :: concatMap (pyReprChar 39) s ++ [Char.ofNat 39]

/-- Python `repr` of a JSON-shaped value (`None`/`True`/`False`, decimal
ints, `repr` strings, `[a, b]` lists, `{k: v}` dicts with `", "`/`": "`
separators in insertion order). -/
def pyRepr : JVal → List Char
  | .null => "None".toList
  | .bool true => "True".toList
  | .bool false => "False".toList
  | .int n => intRepr n
  | .str s => pyReprStr s
  | .arrNil => ['[', ']']
  | .arrCons v rest =>
    match rest with
    | .arrNil => '[' :: pyRepr v ++ [']']
    | _ => '[' :: pyRepr v ++ ',' :: ' ' :: (pyRepr rest).tail
  | .objNil => [Char.ofNat 123, Char.ofNat 125]
  | .objCons k v rest =>
    match rest with
    | .objNil => Char.ofNat 123 :: pyReprStr k ++ ':' :: ' ' :: pyRepr v ++ [Char.ofNat 125]
    | _ => Char.ofNat 123 :: pyReprStr k ++ ':' :: ' ' :: pyRepr v ++
           ',' :: ' ' :: (pyRepr rest).tail

/-- Python `str()` of a JSON-shaped value: identity on strings, `repr`
otherwise. -/
def pyStr : JVal → List Char
  | .str s => s
  | v => pyRepr v

/-! ## The dynamically-typed argument domains of `csv_line` -/

/-- Errors raised by the operations `csv_line` performs. -/
inductive PyErr where
  | valueError : PyErr
  | typeError : PyErr
deriving DecidableEq

/-- `shots` and `discards`: a count or pre-stringified text. -/
inductive FieldVal where
  | int : Int → FieldVal
  | str : List Char → FieldVal
deriving DecidableEq

/-- `str()` of a `FieldVal`, as the csv writer stringifies its field. -/
def fvStr : FieldVal → List Char
  | .int n => intRepr n
  | .str s => s

/-- `errors`: a count, pre-stringified text, or a mapping (dict/Counter)
from category to count. -/
inductive EVal where
  | int : Int → EVal
  | str : List Char → EVal
  | dict : List (List Char × Int) → EVal
deriving DecidableEq

/-- `seconds`: a float (an exact dyadic rational) or pre-stringified
text. -/
inductive SVal where
  | float : ℚ → SVal
  | str : List Char → SVal

/-- A `custom_counts` value before coercion: already an int, a float, or
text (the domains `int()` accepts or rejects). -/
inductive CVal where
  | int : Int → CVal
  | float : ℚ → CVal
  | str : List Char → CVal
deriving DecidableEq

/-- The `custom_counts` argument: a mapping in insertion order, Python
`None` (absent), or literal text (the header call). -/
inductive CC where
  | dict : List (List Char × CVal) → CC
  | noneV : CC
  | str : List Char → CC
deriving DecidableEq

/-! ## Seconds formatting (lines 27-33) -/

/-- Round-half-even of the rational `num / den` (`den > 0`) to an integer:
the rounding `%.Nf` formatting applies to the exact value of a float. -/
def rheDiv (num den : Int) : Int :=
  let d := Int.ediv num den
  let r := num - d * den
  if 2 * r < den then d
  else if den < 2 * r then d + 1
  else if Int.emod d 2 = 0 then d else d + 1

/-- Python `f"{q:0.Nf}"` on the exact rational value of a float: round
half-to-even at `prec` decimal places and print with exactly `prec`
digits after the point (sign taken from the value). -/
def fmtFixed (q : ℚ) (prec : Nat) : List Char :=
  let scaled := rheDiv (q.num * (10 : Int) ^ prec) (q.den : Int)
  let a := scaled.natAbs
  let sign : List Char := if q.num < 0 then ['-'] else []
  let ip := a / 10 ^ prec
  let fracDigits := natDigits (a % 10 ^ prec)
  if prec = 0 then sign ++ natDigits ip
  else sign ++ natDigits ip ++
       '.' :: (List.replicate (prec - fracDigits.length) '0' ++ fracDigits)

/-- Lines 27-33: a float `seconds` is rendered with 3/2/1 decimal places
according to magnitude; anything else (text) is left as-is. -/
def secondsPre : SVal → List Char
  | .float q => if q < 1 then fmtFixed q 3 else if q < 10 then fmtFixed q 2 else fmtFixed q 1
  | .str s => s

/-! ## Coercion of `custom_counts` values (lines 38-41) -/

/-- Python `int(s)` on a string: optional surrounding whitespace, optional
sign, then at least one decimal digit (the repository's count values;
digit-grouping underscores are outside the modelled domain), else
`ValueError`. -/
def pyIntOfStr (s : List Char) : Except PyErr Int :=
  let t := pyStrip s
  let (neg, ds) : Bool × List Char :=
    match t with
    | '-' :: rest => (true, rest)
    | '+' :: rest => (false, rest)
    | _ => (false, t)
  if ds.isEmpty || ds.any (fun c => !(48 ≤ c.toNat && c.toNat ≤ 57)) then
    .error .valueError
  else
    let n : Int := ds.foldl (fun acc c => acc * 10 + ((c.toNat - 48 : Nat) : Int)) 0
    .ok (if neg then -n else n)

/-- Python `int(v)` on a `custom_counts` value: ints pass through, floats
truncate toward zero (a finite float never fails), strings parse. -/
def pyInt : CVal → Except PyErr Int
  | .int n => .ok n
  | .float q =>
    .ok (if q.num < 0 then -(((-q.num).toNat / q.den : Nat) : Int)
         else ((q.num.toNat / q.den : Nat) : Int))
  | .str s => pyIntOfStr s

/-- The loop `for k in custom_counts: custom_counts[k] = int(custom_counts[k])`:
entries are visited in insertion order and each value is replaced in place
by its coercion; on the first failing value the loop aborts, leaving that
entry and all later ones untouched.  Returns the final state of the
mapping and the error, if any. -/
def coerceCounts : List (List Char × CVal) → List (List Char × CVal) × Option PyErr
  | [] => ([], Option.none)
  | (k, v) :: rest =>
    match pyInt v with
    | .ok n =>
      let r := coerceCounts rest
      ((k, CVal.int n) :: r.fst, r.snd)
    | .error e => ((k, v) :: rest, some e)

/-- View a coerced count value as a JSON value for dumping.  After a
successful `coerceCounts` every value is an int; the other cases keep the
function total (json would serialize a leftover string as a string). -/
def cvalToJson : CVal → JVal
  | .int n => .int n
  | .str s => .str s
  | .float q => .int (if q.num < 0 then -(((-q.num).toNat / q.den : Nat) : Int)
                      else ((q.num.toNat / q.den : Nat) : Int))

/-- JSON object for a mapping of integer counts. -/
def objOfCounts (es : List (List Char × Int)) : JVal :=
  objOfList (es.map fun kv => (kv.1, JVal.int kv.2))

/-- Python `repr` of a `custom_counts` value (dead path: only reached by a
header-mode call with a dict, which the source never makes).  A
non-integral float would need Python's shortest-round-trip float `repr`,
which has no exact counterpart on ℚ; integral floats print as `n.0`. -/
def cvalRepr : CVal → List Char
  | .int n => intRepr n
  | .str s => pyReprStr s
  | .float q =>
    if q.den = 1 then intRepr q.num ++ ['.', '0']
    else intRepr q.num ++ '/' :: natDigits q.den

/-- Python `str()` of a `custom_counts` argument (header mode only). -/
def ccHeaderStr : CC → List Char
  | .str s => s
  | .noneV => "None".toList
  | .dict [] => [Char.ofNat 123, Char.ofNat 125]
  | .dict ((k, v) :: t) =>
    Char.ofNat 123 :: pyReprStr k ++ ':' :: ' ' :: cvalRepr v ++
    (concatMap (fun kv => ',' :: ' ' :: pyReprStr kv.1 ++ ':' :: ' ' :: cvalRepr kv.2) t) ++
    [Char.ofNat 125]

/-! ## The row composer: `csv_line` (lines 17-66) and `CSV_HEADER` -/

/-- Lines 38-47: pre-format `custom_counts` when not in header mode.
Returns the rendered field text (or the propagated error) together with
the final state of the caller's mapping.  A non-empty dict is coerced in
place, dumped to compact sorted JSON, and escaped once here with no fixed
width; an empty or absent mapping renders as the empty string.  Iterating
a (non-empty) string argument's characters as keys raises `TypeError`
(data-row calls never pass one). -/
def ccStep (cc : CC) (is_header : Bool) : Except PyErr (List Char) × CC :=
  if is_header then (.ok (ccHeaderStr cc), cc)
  else
    match cc with
    | .dict entries =>
      if entries.isEmpty then (.ok [], cc)
      else
        match coerceCounts entries with
        | (final, some e) => (.error e, .dict final)
        | (final, Option.none) =>
          (.ok (escape_csv (jsonDumps (objOfList (final.map fun kv => (kv.1, cvalToJson kv.2))))
                  Option.none),
           .dict final)
    | .noneV => (.ok [], cc)
    | .str s => if s.isEmpty then (.ok [], cc) else (.error .typeError, cc)

/-- Join the escaped fields with single commas (the f-string on lines
59-66): no trailing separator, no trailing newline. -/
def rowJoin : List (List Char) → List Char
  | [] => []
  | [f] => f
  | f :: rest => f ++ ',' :: rowJoin rest

/-- Lines 51-52: a dict (or Counter) `errors` value is dumped to compact
sorted JSON; a count or pre-stringified text passes through unchanged
(stringified by the csv writer). -/
def errsTxt : EVal → List Char
  | .dict es => jsonDumps (objOfCounts es)
  | .int n => intRepr n
  | .str s => s

/-- Lines 34-37 and 58: `json_metadata` is dumped to compact sorted JSON in
data rows and stringified raw in the header row. -/
def jmTxt (json_metadata : JVal) (is_header : Bool) : List Char :=
  if is_header then pyStr json_metadata else jsonDumps json_metadata

/-- `csv_line` (lines 17-66).  The first component is the returned row (or
the propagated error); the second is the final state of the caller's
`custom_counts` argument, which the function mutates in place. -/
def csv_line (shots : FieldVal) (errors : EVal) (discards : FieldVal)
    (seconds : SVal) (decoder : List Char) (strong_id : List Char)
    (json_metadata : JVal) (custom_counts : CC) (is_header : Bool) :
    Except PyErr (List Char) × CC :=
  match ccStep custom_counts is_header with
  | (.error e, cc2) => (.error e, cc2)
  | (.ok ccTxt, cc2) =>
    (.ok (rowJoin
      [escape_csv (fvStr shots) (some 10),
       escape_csv (errsTxt errors) (some 10),
       escape_csv (fvStr discards) (some 10),
       escape_csv (secondsPre seconds) (some 8),
       escape_csv decoder Option.none,
       escape_csv strong_id Option.none,
       escape_csv (jmTxt json_metadata is_header) Option.none,
       ccTxt]), cc2)

/-- Lines 69-77: the module-level header constant, built by one header-mode
call with each field set to its literal column name. -/
def CSV_HEADER : List Char :=
  match (csv_line (.str "shots".toList) (.str "errors".toList)
      (.str "discards".toList) (.str "seconds".toList) "decoder".toList
      "strong_id".toList (.str "json_metadata".toList)
      (.str "custom_counts".toList) true).fst with
  | .ok s => s
  | .error _ => []

/-! ## Spec-side machinery: splitting a row on commas outside quotes and
unescaping one field (the reading direction used by the claims) -/

/-- Split on commas that lie outside quotes: a `"` toggles the in-quotes
state, a comma outside quotes ends the current field. -/
def splitCsvAux : Bool → List Char → List Char → List (List Char)
  | _, acc, [] => [acc.reverse]
  | inQ, acc, c :: rest =>
    if c = ',' ∧ inQ = false then acc.reverse :: splitCsvAux false [] rest
    else splitCsvAux (if c = '"' then !inQ else inQ) (c :: acc) rest

/-- Split a row into its fields on commas outside quotes. -/
def splitCsv (l : List Char) : List (List Char) := splitCsvAux false [] l

/-- Collapse doubled quotes inside a quoted field body. -/
def undouble : List Char → List Char
  | [] => []
  | [c] => [c]
  | c :: c2 :: rest =>
    if c = '"' ∧ c2 = '"' then '"' :: undouble rest
    else c :: undouble (c2 :: rest)

/-- Unescape one CSV field: strip the surrounding quotes and collapse
doubled quotes; an unquoted field is returned unchanged. -/
def unescapeField (l : List Char) : List Char :=
  match l with
  | '"' :: rest =>
    if rest.getLast? = some '"' then undouble rest.dropLast else l
  | _ => l

/-- The quoting condition of the claims, as a proposition: the value
contains a comma, quote, newline or carriage return, or is empty. -/
def needsQuoteSpec (s : List Char) : Prop :=
  ',' ∈ s ∨ '"' ∈ s ∨ '\n' ∈ s ∨ '\r' ∈ s ∨ s = []

instance (s : List Char) : Decidable (needsQuoteSpec s) := by
  unfold needsQuoteSpec; infer_instance

/-! ## Lemmas about `pyStrip` and `escape_csv` -/

theorem needsQuote_iff (s : List Char) : needsQuote s = true ↔ needsQuoteSpec s := by
  simp only [needsQuote, needsQuoteSpec, Bool.or_eq_true, List.any_eq_true,
    List.isEmpty_iff, decide_eq_true_eq]
  aesop

theorem needsQuote_false_mem {s : List Char} (h : needsQuote s = false) :
    ∀ c ∈ s, c ≠ ',' ∧ c ≠ '"' ∧ c ≠ '\r' ∧ c ≠ '\n' := by
  have hn : ¬ needsQuoteSpec s := by
    rw [← needsQuote_iff, h]; simp
  simp only [needsQuoteSpec, not_or] at hn
  intro c hc
  refine ⟨?_, ?_, ?_, ?_⟩ <;> rintro rfl
  · exact hn.1 hc
  · exact hn.2.1 hc
  · exact hn.2.2.2.1 hc
  · exact hn.2.2.1 hc

/-- Stripping removes a trailing record terminator. -/
theorem pyStrip_append_crlf (s : List Char) :
    pyStrip (s ++ ['\r', '\n']) = pyStrip s := by
  unfold pyStrip
  rw [List.dropWhile_append]
  by_cases h : (s.dropWhile isPyWs).isEmpty
  · rw [if_pos h]
    rw [List.isEmpty_iff] at h
    rw [h]
    rfl
  · rw [if_neg h]
    rw [List.reverse_append]
    have : (['\r', '\n'] : List Char).reverse = ['\n', '\r'] := rfl
    rw [this]
    rfl

/-- Stripping is the identity on a word that starts and ends with
non-whitespace characters. -/
theorem pyStrip_sandwich (a b : Char) (xs : List Char)
    (ha : isPyWs a = false) (hb : isPyWs b = false) :
    pyStrip (a :: xs ++ [b]) = a :: xs ++ [b] := by
  unfold pyStrip
  rw [List.cons_append, List.dropWhile_cons, ha]
  simp only [Bool.false_eq_true, if_false]
  rw [show (a :: (xs ++ [b])).reverse = b :: (xs.reverse ++ [a]) by simp]
  rw [List.dropWhile_cons, hb]
  simp

theorem escape_quoted {s : List Char} (h : needsQuote s = true) :
    escape_csv s Option.none = '"' :: doubleQuotes s ++ ['"'] := by
  unfold escape_csv csvWriterow
  rw [h]
  simp only [if_true]
  have : ('"' :: doubleQuotes s ++ ['"']) ++ ['\r', '\n'] =
      ('"' :: doubleQuotes s ++ ['"']) ++ ['\r', '\n'] := rfl
  rw [pyStrip_append_crlf ('"' :: doubleQuotes s ++ ['"'])]
  exact pyStrip_sandwich '"' '"' (doubleQuotes s) rfl rfl

theorem escape_unquoted {s : List Char} (h : needsQuote s = false) :
    escape_csv s Option.none = pyStrip s := by
  unfold escape_csv csvWriterow
  rw [h]
  simp only [Bool.false_eq_true, if_false]
  exact pyStrip_append_crlf s

theorem mem_pyStrip {c : Char} {s : List Char} (h : c ∈ pyStrip s) : c ∈ s := by
  unfold pyStrip at h
  rw [List.mem_reverse] at h
  have h2 := (List.dropWhile_sublist isPyWs).mem h
  rw [List.mem_reverse] at h2
  exact (List.dropWhile_sublist isPyWs).mem h2

/-- A non-empty stripped string ends in a non-whitespace character. -/
theorem pyStrip_getLast {s : List Char} (h : pyStrip s ≠ []) :
    ∃ c, (pyStrip s).getLast? = some c ∧ isPyWs c = false := by
  unfold pyStrip at h ⊢
  rw [List.getLast?_reverse]
  rcases h2 : ((s.dropWhile isPyWs).reverse.dropWhile isPyWs) with _ | ⟨c, t⟩
  · rw [h2] at h; simp at h
  · refine ⟨c, by simp [h2], ?_⟩
    have := List.head?_dropWhile_not isPyWs (s.dropWhile isPyWs).reverse
    rw [h2] at this
    simpa using this

theorem pyStrip_quoted_eq (s : List Char) :
    pyStrip ('"' :: doubleQuotes s ++ ['"']) = '"' :: doubleQuotes s ++ ['"'] :=
  pyStrip_sandwich '"' '"' (doubleQuotes s) rfl rfl

/-! ## The quote-doubling round trip -/

theorem doubleQuotes_cons (c : Char) (t : List Char) :
    doubleQuotes (c :: t) =
      if c = '"' then '"' :: '"' :: doubleQuotes t else c :: doubleQuotes t := rfl

theorem undouble_cons_cons (c d : Char) (t : List Char) :
    undouble (c :: d :: t) =
      if c = '"' ∧ d = '"' then '"' :: undouble t else c :: undouble (d :: t) := rfl

theorem undouble_cons_ne {c : Char} (h : c ≠ '"') (l : List Char) :
    undouble (c :: l) = c :: undouble l := by
  cases l with
  | nil => rfl
  | cons d t =>
    rw [undouble_cons_cons, if_neg]
    intro hand
    exact h hand.1

theorem undouble_doubleQuotes (s : List Char) :
    undouble (doubleQuotes s) = s := by
  induction s with
  | nil => rfl
  | cons c t ih =>
    by_cases hc : c = '"'
    · subst hc
      rw [doubleQuotes_cons, if_pos rfl, undouble_cons_cons, if_pos ⟨rfl, rfl⟩, ih]
    · rw [doubleQuotes_cons, if_neg hc, undouble_cons_ne hc, ih]

/-! ## Splitting on commas outside quotes -/

theorem splitCsvAux_nil (inQ : Bool) (acc : List Char) :
    splitCsvAux inQ acc [] = [acc.reverse] := rfl

theorem splitCsvAux_cons (inQ : Bool) (acc : List Char) (c : Char) (rest : List Char) :
    splitCsvAux inQ acc (c :: rest) =
      if c = ',' ∧ inQ = false then acc.reverse :: splitCsvAux false [] rest
      else splitCsvAux (if c = '"' then !inQ else inQ) (c :: acc) rest := rfl

theorem splitCsvAux_comma_out (acc : List Char) (rest : List Char) :
    splitCsvAux false acc (',' :: rest) = acc.reverse :: splitCsvAux false [] rest := by
  rw [splitCsvAux_cons, if_pos ⟨rfl, rfl⟩]

theorem splitCsvAux_other {c : Char} (inQ : Bool) (acc rest : List Char)
    (h : ¬ (c = ',' ∧ inQ = false)) :
    splitCsvAux inQ acc (c :: rest) =
      splitCsvAux (if c = '"' then !inQ else inQ) (c :: acc) rest := by
  rw [splitCsvAux_cons, if_neg h]

/-- Scanning the doubled body of a quoted field never leaves quote mode for
longer than one character and never splits. -/
theorem dq_scan (s : List Char) : ∀ acc rest,
    splitCsvAux true acc (doubleQuotes s ++ '"' :: rest) =
      splitCsvAux false ('"' :: (doubleQuotes s).reverse ++ acc) rest := by
  induction s with
  | nil =>
    intro acc rest
    simp only [doubleQuotes, List.nil_append, List.reverse_nil]
    rw [splitCsvAux_other true acc rest (by simp)]
    simp
  | cons c t ih =>
    intro acc rest
    by_cases hc : c = '"'
    · subst hc
      rw [doubleQuotes_cons, if_pos rfl]
      rw [List.cons_append, List.cons_append]
      rw [splitCsvAux_other true acc _ (by simp)]
      rw [if_pos rfl]
      simp only [Bool.not_true]
      rw [splitCsvAux_other false ('"' :: acc) _ (by simp)]
      rw [if_pos rfl]
      simp only [Bool.not_false]
      rw [ih ('"' :: '"' :: acc) rest]
      simp
    · rw [doubleQuotes_cons, if_neg hc]
      rw [List.cons_append]
      rw [splitCsvAux_other true acc _ (by simp)]
      rw [if_neg hc]
      rw [ih (c :: acc) rest]
      simp

/-- A block of text is "field safe" when scanning it from outside quotes
consumes it whole: it contributes no split and ends outside quotes. -/
def SafeF (l : List Char) : Prop :=
  ∀ acc rest, splitCsvAux false acc (l ++ rest) = splitCsvAux false (l.reverse ++ acc) rest

theorem SafeF_nil : SafeF [] := by
  intro acc rest; simp

theorem SafeF_append {l1 l2 : List Char} (h1 : SafeF l1) (h2 : SafeF l2) :
    SafeF (l1 ++ l2) := by
  intro acc rest
  rw [List.append_assoc, h1, h2, List.reverse_append, List.append_assoc]

theorem SafeF_noSpecial {l : List Char} (h : ∀ c ∈ l, c ≠ ',' ∧ c ≠ '"') :
    SafeF l := by
  induction l with
  | nil => exact SafeF_nil
  | cons c t ih =>
    intro acc rest
    rw [List.cons_append]
    rw [splitCsvAux_other false acc _ (by
      intro hand
      exact (h c (List.mem_cons_self c t)).1 hand.1)]
    rw [if_neg (h c (List.mem_cons_self c t)).2]
    rw [ih (fun d hd => h d (List.mem_cons_of_mem c hd)) (c :: acc) rest]
    simp

theorem SafeF_quoted (s : List Char) : SafeF ('"' :: doubleQuotes s ++ ['"']) := by
  intro acc rest
  rw [List.cons_append, List.cons_append]
  rw [splitCsvAux_other false acc _ (by simp)]
  rw [if_pos rfl]
  simp only [Bool.not_false]
  rw [List.append_assoc, List.singleton_append]
  rw [dq_scan s ('"' :: acc) rest]
  simp

theorem SafeF_escape (s : List Char) (w : Option Nat) : SafeF (escape_csv s w) := by
  have core : SafeF (pyStrip (csvWriterow s)) := by
    cases hq : needsQuote s with
    | true =>
      have := escape_quoted hq
      unfold escape_csv at this
      simp only at this
      rw [this]
      exact SafeF_quoted s
    | false =>
      have := escape_unquoted hq
      unfold escape_csv at this
      simp only at this
      rw [this]
      refine SafeF_noSpecial (fun c hc => ?_)
      have := needsQuote_false_mem hq c (mem_pyStrip hc)
      exact ⟨this.1, this.2.1⟩
  match w with
  | Option.none => exact core
  | some wv =>
    show SafeF (rjust wv (pyStrip (csvWriterow s)))
    unfold rjust
    refine SafeF_append (SafeF_noSpecial ?_) core
    intro c hc
    rw [List.eq_of_mem_replicate hc]
    exact ⟨by decide, by decide⟩

/-- Splitting a comma-joined row of field-safe blocks recovers the
blocks. -/
theorem splitCsv_rowJoin : ∀ fs : List (List Char), fs ≠ [] →
    (∀ f ∈ fs, SafeF f) → splitCsv (rowJoin fs) = fs := by
  intro fs
  induction fs with
  | nil => intro h; exact absurd rfl h
  | cons f rest ih =>
    intro _ hsafe
    cases rest with
    | nil =>
      show splitCsvAux false [] f = [f]
      conv_lhs => rw [← List.append_nil f]
      rw [hsafe f (List.mem_cons_self f []) [] []]
      rw [splitCsvAux_nil]
      simp
    | cons g rest2 =>
      show splitCsvAux false [] (f ++ ',' :: rowJoin (g :: rest2)) = f :: g :: rest2
      rw [hsafe f (List.mem_cons_self f _) [] (',' :: rowJoin (g :: rest2))]
      rw [List.append_nil, splitCsvAux_comma_out]
      rw [List.reverse_reverse]
      have := ih (by simp) (fun x hx => hsafe x (List.mem_cons_of_mem f hx))
      unfold splitCsv at this
      rw [this]

/-! ## The key order used by `sort_keys=True` -/

theorem strLe_cons (a b : Char) (as bs : List Char) :
    strLe (a :: as) (b :: bs) =
      if a = b then strLe as bs else decide (a.toNat < b.toNat) := rfl

theorem char_toNat_ne {a b : Char} (h : a ≠ b) : a.toNat ≠ b.toNat := by
  intro he
  exact h (Char.ext (by
    have : a.val.toNat = b.val.toNat := he
    exact UInt32.toNat.inj this))

theorem strLe_total (a : List Char) : ∀ b, strLe a b = true ∨ strLe b a = true := by
  induction a with
  | nil => intro b; exact Or.inl rfl
  | cons x xs ih =>
    intro b
    cases b with
    | nil => exact Or.inr rfl
    | cons y ys =>
      rw [strLe_cons, strLe_cons]
      by_cases hxy : x = y
      · subst hxy
        rw [if_pos rfl, if_pos rfl]
        exact ih ys
      · rw [if_neg hxy, if_neg (Ne.symm hxy)]
        rcases Nat.lt_or_ge x.toNat y.toNat with h | h
        · exact Or.inl (by simpa using h)
        · rcases Nat.lt_or_eq_of_le h with h2 | h2
          · exact Or.inr (by simpa using h2)
          · exact absurd h2.symm (char_toNat_ne hxy)

theorem strLe_antisymm : ∀ a b : List Char,
    strLe a b = true → strLe b a = true → a = b := by
  intro a
  induction a with
  | nil =>
    intro b _ h2
    cases b with
    | nil => rfl
    | cons y ys => exact absurd h2 (by simp [strLe])
  | cons x xs ih =>
    intro b h1 h2
    cases b with
    | nil => exact absurd h1 (by simp [strLe])
    | cons y ys =>
      rw [strLe_cons] at h1 h2
      by_cases hxy : x = y
      · subst hxy
        rw [if_pos rfl] at h1 h2
        rw [ih ys h1 h2]
      · rw [if_neg hxy] at h1
        rw [if_neg (Ne.symm hxy)] at h2
        simp only [decide_eq_true_eq] at h1 h2
        exact absurd h2 (Nat.lt_asymm h1)

theorem strLe_trans : ∀ a b c : List Char,
    strLe a b = true → strLe b c = true → strLe a c = true := by
  intro a
  induction a with
  | nil => intro b c _ _; rfl
  | cons x xs ih =>
    intro b c h1 h2
    cases b with
    | nil => exact absurd h1 (by simp [strLe])
    | cons y ys =>
      cases c with
      | nil => exact absurd h2 (by simp [strLe])
      | cons z zs =>
        rw [strLe_cons] at h1 h2 ⊢
        by_cases hxy : x = y <;> by_cases hyz : y = z
        · subst hxy; subst hyz
          rw [if_pos rfl] at h1 h2 ⊢
          exact ih ys zs h1 h2
        · subst hxy
          rw [if_pos rfl] at h1
          rw [if_neg hyz] at h2 ⊢
          exact h2
        · subst hyz
          rw [if_neg hxy] at h1 ⊢
          exact h1
        · rw [if_neg hxy] at h1
          rw [if_neg hyz] at h2
          simp only [decide_eq_true_eq] at h1 h2
          have hxz : x.toNat < z.toNat := Nat.lt_trans h1 h2
          have : x ≠ z := by
            intro he
            subst he
            exact Nat.lt_irrefl _ hxz
          rw [if_neg this]
          simpa using hxz

theorem strLe_false_flip {a b : List Char} (h : strLe a b = false) :
    strLe b a = true := by
  rcases strLe_total a b with h2 | h2
  · rw [h] at h2; exact absurd h2 (by simp)
  · exact h2

/-! ## `objInsert`, `canon`, and insertion-order independence -/

theorem objInsert_objCons (k : List Char) (v : JVal) (k2 : List Char) (v2 rest : JVal) :
    objInsert k v (.objCons k2 v2 rest) =
      if strLe k k2 then .objCons k v (.objCons k2 v2 rest)
      else .objCons k2 v2 (objInsert k v rest) := rfl

theorem objInsert_base (k : List Char) (v : JVal) {c : JVal}
    (h : ∀ k2 v2 rest, c ≠ .objCons k2 v2 rest) :
    objInsert k v c = .objCons k v c := by
  cases c with
  | objCons k2 v2 rest => exact absurd rfl (h k2 v2 rest)
  | null => rfl
  | bool b => rfl
  | int n => rfl
  | str s => rfl
  | arrNil => rfl
  | arrCons a b => rfl
  | objNil => rfl

theorem objInsert_swap {ka kb : List Char} (hab : strLe ka kb = true)
    (hba : strLe kb ka = false) (va vb : JVal) : ∀ c,
    objInsert ka va (objInsert kb vb c) = objInsert kb vb (objInsert ka va c) := by
  intro c
  induction c with
  | objCons k2 v2 rest ihv ihr =>
    clear ihv
    rw [objInsert_objCons kb vb k2 v2 rest]
    by_cases h3 : strLe kb k2 = true
    · rw [if_pos h3]
      rw [objInsert_objCons ka va kb vb, if_pos hab]
      rw [objInsert_objCons ka va k2 v2 rest]
      have h2 : strLe ka k2 = true := strLe_trans ka kb k2 hab h3
      rw [if_pos h2]
      rw [objInsert_objCons kb vb ka va, if_neg (by simp [hba])]
      rw [objInsert_objCons kb vb k2 v2 rest, if_pos h3]
    · rw [if_neg h3]
      rw [objInsert_objCons ka va k2 v2 (objInsert kb vb rest)]
      rw [objInsert_objCons ka va k2 v2 rest]
      by_cases h2 : strLe ka k2 = true
      · rw [if_pos h2, if_pos h2]
        rw [objInsert_objCons kb vb ka va, if_neg (by simp [hba])]
        rw [objInsert_objCons kb vb k2 v2 rest, if_neg h3]
      · rw [if_neg h2, if_neg h2]
        rw [objInsert_objCons kb vb k2 v2 (objInsert ka va rest), if_neg h3]
        rw [ihr]
  | null =>
    simp only [objInsert]
    rw [if_pos hab, if_neg (by simp [hba])]
  | bool b =>
    simp only [objInsert]
    rw [if_pos hab, if_neg (by simp [hba])]
  | int n =>
    simp only [objInsert]
    rw [if_pos hab, if_neg (by simp [hba])]
  | str s =>
    simp only [objInsert]
    rw [if_pos hab, if_neg (by simp [hba])]
  | arrNil =>
    simp only [objInsert]
    rw [if_pos hab, if_neg (by simp [hba])]
  | arrCons a b iha ihb =>
    simp only [objInsert]
    rw [if_pos hab, if_neg (by simp [hba])]
  | objNil =>
    simp only [objInsert]
    rw [if_pos hab, if_neg (by simp [hba])]

theorem objInsert_comm {k1 k2 : List Char} (h : k1 ≠ k2) (v1 v2 : JVal) (c : JVal) :
    objInsert k1 v1 (objInsert k2 v2 c) = objInsert k2 v2 (objInsert k1 v1 c) := by
  cases h12 : strLe k1 k2 with
  | false => exact (objInsert_swap (strLe_false_flip h12) h12 v2 v1 c).symm
  | true =>
    cases h21 : strLe k2 k1 with
    | false => exact objInsert_swap h12 h21 v1 v2 c
    | true => exact absurd (strLe_antisymm k1 k2 h12 h21) h

theorem canon_objCons (k : List Char) (v rest : JVal) :
    canon (.objCons k v rest) = objInsert k (canon v) (canon rest) := rfl

theorem canon_objOfList (l : List (List Char × JVal)) :
    canon (objOfList l) =
      l.foldr (fun kv c => objInsert kv.1 (canon kv.2) c) JVal.objNil := by
  induction l with
  | nil => rfl
  | cons kv t ih =>
    rcases kv with ⟨k, v⟩
    rw [show objOfList ((k, v) :: t) = .objCons k v (objOfList t) from rfl]
    rw [canon_objCons, ih]
    rfl

theorem keys_nodup_inj {l : List (α × β)} (nd : (l.map Prod.fst).Nodup)
    {x y : α × β} (hx : x ∈ l) (hy : y ∈ l) (hk : x.1 = y.1) : x = y := by
  induction l with
  | nil => cases hx
  | cons a t ih =>
    rw [List.map_cons, List.nodup_cons] at nd
    rcases List.mem_cons.mp hx with rfl | hx2
    · rcases List.mem_cons.mp hy with rfl | hy2
      · rfl
      · exact absurd (List.mem_map.mpr ⟨y, hy2, hk.symm⟩) nd.1
    · rcases List.mem_cons.mp hy with rfl | hy2
      · exact absurd (List.mem_map.mpr ⟨x, hx2, hk⟩) nd.1
      · exact ih nd.2 hx2 hy2

/-- Insertion-order independence of the sorted object build: the heart of
`sort_keys=True` producing a canonical text. -/
theorem canon_obj_perm {l1 l2 : List (List Char × JVal)} (h : l1.Perm l2)
    (nd : (l1.map Prod.fst).Nodup) :
    canon (objOfList l1) = canon (objOfList l2) := by
  rw [canon_objOfList, canon_objOfList]
  refine h.foldr_eq' ?_ _
  intro x hx y hy z
  by_cases hxy : x = y
  · subst hxy; rfl
  · have hk : y.1 ≠ x.1 := fun he => hxy (keys_nodup_inj nd hx hy he.symm)
    exact objInsert_comm hk (canon y.2) (canon x.2) z

/-! ## The keys of a canonical object are sorted -/

/-- The keys of an object chain in stored (hence serialized) order. -/
def objKeys : JVal → List (List Char)
  | .objCons k _ rest => k :: objKeys rest
  | _ => []

theorem objKeys_objCons (k : List Char) (v rest : JVal) :
    objKeys (.objCons k v rest) = k :: objKeys rest := rfl

theorem objKeys_insert_mem {x k : List Char} {v : JVal} : ∀ c : JVal,
    x ∈ objKeys (objInsert k v c) → x = k ∨ x ∈ objKeys c := by
  intro c
  induction c with
  | objCons k2 v2 rest ihv ihr =>
    clear ihv
    intro hx
    rw [objInsert_objCons] at hx
    by_cases h2 : strLe k k2 = true
    · rw [if_pos h2] at hx
      rw [objKeys_objCons] at hx
      rcases List.mem_cons.mp hx with rfl | hx2
      · exact Or.inl rfl
      · exact Or.inr hx2
    · rw [if_neg h2] at hx
      rw [objKeys_objCons] at hx
      rcases List.mem_cons.mp hx with rfl | hx2
      · exact Or.inr (List.mem_cons_self _ _)
      · rcases ihr hx2 with h | h
        · exact Or.inl h
        · exact Or.inr (List.mem_cons_of_mem _ h)
  | null => intro hx; rcases List.mem_cons.mp hx with rfl | hx2
            exacts [Or.inl rfl, absurd hx2 (by simp [objKeys])]
  | bool b => intro hx; rcases List.mem_cons.mp hx with rfl | hx2
              exacts [Or.inl rfl, absurd hx2 (by simp [objKeys])]
  | int n => intro hx; rcases List.mem_cons.mp hx with rfl | hx2
             exacts [Or.inl rfl, absurd hx2 (by simp [objKeys])]
  | str s => intro hx; rcases List.mem_cons.mp hx with rfl | hx2
             exacts [Or.inl rfl, absurd hx2 (by simp [objKeys])]
  | arrNil => intro hx; rcases List.mem_cons.mp hx with rfl | hx2
              exacts [Or.inl rfl, absurd hx2 (by simp [objKeys])]
  | arrCons a b iha ihb => intro hx; rcases List.mem_cons.mp hx with rfl | hx2
                           exacts [Or.inl rfl, absurd hx2 (by simp [objKeys])]
  | objNil => intro hx; rcases List.mem_cons.mp hx with rfl | hx2
              exacts [Or.inl rfl, absurd hx2 (by simp [objKeys])]

theorem objKeys_insert_sorted {k : List Char} {v : JVal} : ∀ c : JVal,
    (objKeys c).Pairwise (fun a b => strLe a b = true) →
    (objKeys (objInsert k v c)).Pairwise (fun a b => strLe a b = true) := by
  intro c
  induction c with
  | objCons k2 v2 rest ihv ihr =>
    clear ihv
    intro h
    rw [objKeys_objCons] at h
    rw [objInsert_objCons]
    by_cases h2 : strLe k k2 = true
    · rw [if_pos h2]
      rw [objKeys_objCons, objKeys_objCons]
      refine List.Pairwise.cons ?_ h
      intro x hx
      rcases List.mem_cons.mp hx with rfl | hx2
      · exact h2
      · exact strLe_trans k k2 x h2 ((List.pairwise_cons.mp h).1 x hx2)
    · rw [if_neg h2]
      rw [objKeys_objCons]
      refine List.Pairwise.cons ?_ (ihr (List.pairwise_cons.mp h).2)
      intro x hx
      rcases objKeys_insert_mem rest hx with rfl | hx2
      · exact strLe_false_flip (by simpa using h2)
      · exact (List.pairwise_cons.mp h).1 x hx2
  | null => intro _; simp [objInsert, objKeys]
  | bool b => intro _; simp [objInsert, objKeys]
  | int n => intro _; simp [objInsert, objKeys]
  | str s => intro _; simp [objInsert, objKeys]
  | arrNil => intro _; simp [objInsert, objKeys]
  | arrCons a b iha ihb => intro _; simp [objInsert, objKeys]
  | objNil => intro _; simp [objInsert, objKeys]

theorem objKeys_insert_perm (k : List Char) (v : JVal) : ∀ c : JVal,
    (objKeys (objInsert k v c)).Perm (k :: objKeys c) := by
  intro c
  induction c with
  | objCons k2 v2 rest ihv ihr =>
    clear ihv
    rw [objInsert_objCons]
    by_cases h2 : strLe k k2 = true
    · rw [if_pos h2, objKeys_objCons]
    · rw [if_neg h2]
      rw [objKeys_objCons, objKeys_objCons]
      exact (ihr.cons k2).trans (List.Perm.swap k k2 (objKeys rest))
  | null => simp [objInsert, objKeys]
  | bool b => simp [objInsert, objKeys]
  | int n => simp [objInsert, objKeys]
  | str s => simp [objInsert, objKeys]
  | arrNil => simp [objInsert, objKeys]
  | arrCons a b iha ihb => simp [objInsert, objKeys]
  | objNil => simp [objInsert, objKeys]

/-- The serialized entry order of a canonical object: sorted keys, and
exactly the keys of the original mapping. -/
theorem canon_objOfList_keys (l : List (List Char × JVal)) :
    (objKeys (canon (objOfList l))).Pairwise (fun a b => strLe a b = true) ∧
      (objKeys (canon (objOfList l))).Perm (l.map Prod.fst) := by
  induction l with
  | nil => exact ⟨List.Pairwise.nil, List.Perm.refl _⟩
  | cons kv t ih =>
    rcases kv with ⟨k, v⟩
    rw [show objOfList ((k, v) :: t) = .objCons k v (objOfList t) from rfl]
    rw [canon_objCons]
    constructor
    · exact objKeys_insert_sorted (canon (objOfList t)) ih.1
    · rw [List.map_cons]
      exact (objKeys_insert_perm k (canon v) _).trans (ih.2.cons k)

/-! ## Lemmas about the coercion loop -/

/-- The value `int(v)` would produce, with a default on the error path
(only used under a success hypothesis). -/
def cvalIntTrunc (v : CVal) : Int :=
  match pyInt v with
  | .ok n => n
  | .error _ => 0

theorem pyInt_error_val {v : CVal} {e : PyErr} (h : pyInt v = .error e) :
    e = PyErr.valueError := by
  cases v with
  | int n => cases h
  | float q => cases h
  | str s =>
    simp only [pyInt, pyIntOfStr] at h
    split at h
    · cases h
      rfl
    · cases h

theorem coerceCounts_keys : ∀ l : List (List Char × CVal),
    (coerceCounts l).1.map Prod.fst = l.map Prod.fst := by
  intro l
  induction l with
  | nil => rfl
  | cons kv t ih =>
    rcases kv with ⟨k, v⟩
    show (coerceCounts ((k, v) :: t)).1.map Prod.fst = k :: t.map Prod.fst
    unfold coerceCounts
    cases hv : pyInt v with
    | ok n => simpa using ih
    | error e => simp

theorem coerceCounts_err {l : List (List Char × CVal)} {k : List Char} {v : CVal}
    (hmem : (k, v) ∈ l) {e : PyErr} (hv : pyInt v = .error e) :
    (coerceCounts l).2 = some PyErr.valueError := by
  induction l with
  | nil => cases hmem
  | cons kv t ih =>
    rcases kv with ⟨k2, v2⟩
    show (coerceCounts ((k2, v2) :: t)).2 = some PyErr.valueError
    unfold coerceCounts
    cases hv2 : pyInt v2 with
    | ok n =>
      simp only
      rcases List.mem_cons.mp hmem with he | hmem2
      · rw [show v = v2 from congrArg Prod.snd he] at hv
        rw [hv2] at hv
        cases hv
      · exact ih hmem2
    | error e2 =>
      simp only
      rw [pyInt_error_val hv2]

theorem coerceCounts_ok_vals : ∀ l : List (List Char × CVal),
    (coerceCounts l).2 = Option.none →
    (coerceCounts l).1 = l.map fun kv => (kv.1, CVal.int (cvalIntTrunc kv.2)) := by
  intro l
  induction l with
  | nil => intro _; rfl
  | cons kv t ih =>
    rcases kv with ⟨k, v⟩
    intro h
    revert h
    show (coerceCounts ((k, v) :: t)).2 = Option.none → _
    unfold coerceCounts
    cases hv : pyInt v with
    | ok n =>
      intro h
      simp only at h ⊢
      rw [List.map_cons]
      refine congrArg₂ _ ?_ (ih h)
      have : cvalIntTrunc v = n := by
        unfold cvalIntTrunc
        rw [hv]
      rw [this]
    | error e =>
      intro h
      simp only at h
      cases h

theorem coerceCounts_ok_iff : ∀ l : List (List Char × CVal),
    (coerceCounts l).2 = Option.none ↔ ∀ kv ∈ l, ∃ n, pyInt kv.2 = .ok n := by
  intro l
  induction l with
  | nil => simp [coerceCounts]
  | cons kv t ih =>
    rcases kv with ⟨k, v⟩
    show (coerceCounts ((k, v) :: t)).2 = Option.none ↔ _
    unfold coerceCounts
    cases hv : pyInt v with
    | ok n =>
      simp only
      rw [ih]
      constructor
      · intro h kv2 hm
        rcases List.mem_cons.mp hm with rfl | hm2
        · exact ⟨n, hv⟩
        · exact h kv2 hm2
      · intro h kv2 hm2
        exact h kv2 (List.mem_cons_of_mem _ hm2)
    | error e =>
      simp only
      constructor
      · intro h; cases h
      · intro h
        rcases h (k, v) (List.mem_cons_self _ _) with ⟨n, hn⟩
        rw [hv] at hn
        cases hn

/-! ## Decimal rendering lemmas for the seconds column -/

theorem char_ofNat_toNat_digit {m : Nat} (h : m < 10) :
    (Char.ofNat (48 + m)).toNat = 48 + m := by
  interval_cases m <;> decide

theorem natDigitsAux_mem : ∀ (fuel n : Nat) (acc : List Char),
    ∀ c ∈ natDigitsAux fuel n acc, c ∈ acc ∨ (48 ≤ c.toNat ∧ c.toNat ≤ 57) := by
  intro fuel
  induction fuel with
  | zero => intro n acc c hc; exact Or.inl hc
  | succ f ih =>
    intro n acc c hc
    rw [show natDigitsAux (f + 1) n acc =
        if n = 0 then acc
        else natDigitsAux f (n / 10) (Char.ofNat (48 + n % 10) :: acc) from rfl] at hc
    by_cases hn : n = 0
    · rw [if_pos hn] at hc; exact Or.inl hc
    · rw [if_neg hn] at hc
      rcases ih (n / 10) _ c hc with hacc | hdig
      · rcases List.mem_cons.mp hacc with rfl | h2
        · right
          have h10 : n % 10 < 10 := Nat.mod_lt n (by norm_num)
          rw [char_ofNat_toNat_digit h10]
          omega
        · exact Or.inl h2
      · exact Or.inr hdig

theorem natDigits_mem {n : Nat} : ∀ c ∈ natDigits n, 48 ≤ c.toNat ∧ c.toNat ≤ 57 := by
  intro c hc
  unfold natDigits at hc
  by_cases hn : n = 0
  · rw [if_pos hn] at hc
    rcases List.mem_singleton.mp hc with rfl
    exact ⟨by decide, by decide⟩
  · rw [if_neg hn] at hc
    rcases natDigitsAux_mem (n + 1) n [] c hc with h | h
    · cases h
    · exact h

theorem natDigits_ne_dot {n : Nat} {c : Char} (hc : c ∈ natDigits n) : ¬ c = '.' := by
  intro he
  subst he
  have := natDigits_mem _ hc
  simp at this

theorem natDigitsAux_length : ∀ (p fuel n : Nat) (acc : List Char), n < 10 ^ p →
    (natDigitsAux fuel n acc).length ≤ p + acc.length := by
  intro p
  induction p with
  | zero =>
    intro fuel n acc hn
    have : n = 0 := by omega
    subst this
    cases fuel with
    | zero => simp [natDigitsAux]
    | succ f => simp [natDigitsAux]
  | succ p ih =>
    intro fuel n acc hn
    cases fuel with
    | zero => simp [natDigitsAux]
    | succ f =>
      rw [show natDigitsAux (f + 1) n acc =
          if n = 0 then acc
          else natDigitsAux f (n / 10) (Char.ofNat (48 + n % 10) :: acc) from rfl]
      by_cases h0 : n = 0
      · rw [if_pos h0]; omega
      · rw [if_neg h0]
        have hdiv : n / 10 < 10 ^ p := by
          rw [pow_succ, Nat.mul_comm] at hn
          exact Nat.div_lt_of_lt_mul hn
        have := ih f (n / 10) (Char.ofNat (48 + n % 10) :: acc) hdiv
        simp only [List.length_cons] at this
        omega

theorem natDigits_length {n p : Nat} (hn : n < 10 ^ p) (hp : 0 < p) :
    (natDigits n).length ≤ p := by
  unfold natDigits
  by_cases h0 : n = 0
  · rw [if_pos h0]; simpa using hp
  · rw [if_neg h0]
    simpa using natDigitsAux_length p (n + 1) n [] hn

/-- Count of characters after the last decimal point. -/
def decCount (s : List Char) : Nat :=
  (s.reverse.takeWhile fun c => c != '.').length

theorem takeWhile_append_stop {P : Char → Bool} {l tail : List Char} {x : Char}
    (hall : ∀ c ∈ l, P c = true) (hx : P x = false) :
    (l ++ x :: tail).takeWhile P = l := by
  induction l with
  | nil => simp [List.takeWhile_cons, hx]
  | cons c t ih =>
    rw [List.cons_append, List.takeWhile_cons, hall c (List.mem_cons_self _ _)]
    simp only [if_true]
    rw [ih (fun d hd => hall d (List.mem_cons_of_mem _ hd))]

theorem decCount_append_dot {pre post : List Char} (h : ∀ c ∈ post, ¬ c = '.') :
    decCount (pre ++ '.' :: post) = post.length := by
  unfold decCount
  rw [show (pre ++ '.' :: post).reverse = post.reverse ++ '.' :: pre.reverse by simp]
  rw [takeWhile_append_stop (fun c hc => by
      simpa using h c (List.mem_reverse.mp hc)) (by simp)]
  simp

/-- The formatted seconds value carries exactly `prec` digits after the
decimal point. -/
theorem fmtFixed_decCount (q : ℚ) (prec : Nat) (hp : 0 < prec) :
    decCount (fmtFixed q prec) = prec ∧ '.' ∈ fmtFixed q prec := by
  unfold fmtFixed
  rw [if_neg (by omega)]
  set a := (rheDiv (q.num * (10 : Int) ^ prec) (q.den : Int)).natAbs with ha
  set sign : List Char := if q.num < 0 then ['-'] else [] with hs
  set fracDigits := natDigits (a % 10 ^ prec) with hf
  have hmod : a % 10 ^ prec < 10 ^ prec := Nat.mod_lt a (Nat.pos_pow_of_pos prec (by norm_num))
  have hlen : fracDigits.length ≤ prec := natDigits_length hmod hp
  have hpost : ∀ c ∈ List.replicate (prec - fracDigits.length) '0' ++ fracDigits, ¬ c = '.' := by
    intro c hc
    rcases List.mem_append.mp hc with h | h
    · rw [List.eq_of_mem_replicate h]; decide
    · exact natDigits_ne_dot h
  constructor
  · rw [show sign ++ natDigits (a / 10 ^ prec) ++
        '.' :: (List.replicate (prec - fracDigits.length) '0' ++ fracDigits) =
        (sign ++ natDigits (a / 10 ^ prec)) ++
        '.' :: (List.replicate (prec - fracDigits.length) '0' ++ fracDigits) by simp]
    rw [decCount_append_dot hpost]
    simp [Nat.sub_add_cancel hlen]
  · simp

/-! ## Structural lemmas for `csv_line` -/

theorem csv_line_eq_ok {cc : CC} {ih : Bool} {ccTxt : List Char} {cc2 : CC}
    (h : ccStep cc ih = (.ok ccTxt, cc2)) (sh : FieldVal) (er : EVal)
    (di : FieldVal) (se : SVal) (de si : List Char) (jm : JVal) :
    csv_line sh er di se de si jm cc ih =
      (.ok (rowJoin
        [escape_csv (fvStr sh) (some 10),
         escape_csv (errsTxt er) (some 10),
         escape_csv (fvStr di) (some 10),
         escape_csv (secondsPre se) (some 8),
         escape_csv de Option.none,
         escape_csv si Option.none,
         escape_csv (jmTxt jm ih) Option.none,
         ccTxt]), cc2) := by
  unfold csv_line
  rw [h]

theorem csv_line_eq_error {cc : CC} {ih : Bool} {e : PyErr} {cc2 : CC}
    (h : ccStep cc ih = (.error e, cc2)) (sh : FieldVal) (er : EVal)
    (di : FieldVal) (se : SVal) (de si : List Char) (jm : JVal) :
    csv_line sh er di se de si jm cc ih = (.error e, cc2) := by
  unfold csv_line
  rw [h]

theorem ccStep_header (cc : CC) : ccStep cc true = (.ok (ccHeaderStr cc), cc) := rfl

theorem ccStep_dict_nil : ccStep (.dict []) false = (.ok [], .dict []) := rfl

theorem ccStep_noneV : ccStep .noneV false = (.ok [], .noneV) := rfl

theorem ccStep_dict_cons (e : List Char × CVal) (t : List (List Char × CVal)) :
    ccStep (.dict (e :: t)) false =
      (match coerceCounts (e :: t) with
       | (final, some err) => (.error err, .dict final)
       | (final, Option.none) =>
         (.ok (escape_csv
            (jsonDumps (objOfList (final.map fun kv => (kv.1, cvalToJson kv.2))))
            Option.none), .dict final)) := by
  unfold ccStep
  rw [if_neg (by simp)]
  dsimp only
  rw [if_neg (by simp)]

theorem ccStep_dict_outcome (entries : List (List Char × CVal)) (hne : entries ≠ []) :
    (((coerceCounts entries).2 = Option.none ∧
        ccStep (.dict entries) false =
          (.ok (escape_csv
             (jsonDumps (objOfList
               ((coerceCounts entries).1.map fun kv => (kv.1, cvalToJson kv.2))))
             Option.none), .dict (coerceCounts entries).1)) ∨
      (∃ err, (coerceCounts entries).2 = some err ∧
        ccStep (.dict entries) false = (.error err, .dict (coerceCounts entries).1))) := by
  rcases entries with _ | ⟨e, t⟩
  · exact absurd rfl hne
  · rw [ccStep_dict_cons]
    rcases hc : coerceCounts (e :: t) with ⟨final, err⟩
    cases err with
    | none => exact Or.inl ⟨rfl, rfl⟩
    | some e2 => exact Or.inr ⟨e2, rfl, rfl⟩

theorem ccStep_ok_shape {cc : CC} {ccTxt : List Char} {cc2 : CC}
    (h : ccStep cc false = (.ok ccTxt, cc2)) :
    ccTxt = [] ∨ ∃ t, ccTxt = escape_csv t Option.none := by
  cases cc with
  | dict entries =>
    rcases entries with _ | ⟨e, t⟩
    · rw [ccStep_dict_nil] at h
      injection h with h1 h2
      injection h1 with h3
      exact Or.inl h3.symm
    · rw [ccStep_dict_cons] at h
      rcases hc : coerceCounts (e :: t) with ⟨final, err⟩
      rw [hc] at h
      cases err with
      | none =>
        injection h with h1 h2
        injection h1 with h3
        exact Or.inr ⟨_, h3.symm⟩
      | some e2 => cases h
  | noneV =>
    rw [ccStep_noneV] at h
    injection h with h1 h2
    injection h1 with h3
    exact Or.inl h3.symm
  | str sv =>
    unfold ccStep at h
    rw [if_neg (by simp)] at h
    dsimp only at h
    by_cases hE : sv.isEmpty = true
    · rw [if_pos hE] at h
      injection h with h1 h2
      injection h1 with h3
      exact Or.inl h3.symm
    · rw [if_neg hE] at h
      cases h

theorem SafeF_ccTxt {cc : CC} {ccTxt : List Char} {cc2 : CC}
    (h : ccStep cc false = (.ok ccTxt, cc2)) : SafeF ccTxt := by
  rcases ccStep_ok_shape h with rfl | ⟨t, rfl⟩
  · exact SafeF_nil
  · exact SafeF_escape t Option.none

/-- Any successful data row of `csv_line` splits on outside-quote commas
into exactly its eight escaped fields, in argument order. -/
theorem csv_line_row_split {sh : FieldVal} {er : EVal} {di : FieldVal}
    {se : SVal} {de si : List Char} {jm : JVal} {cc : CC} {row : List Char}
    (h : (csv_line sh er di se de si jm cc false).fst = .ok row) :
    ∃ ccTxt cc2, ccStep cc false = (.ok ccTxt, cc2) ∧
      row = rowJoin
        [escape_csv (fvStr sh) (some 10),
         escape_csv (errsTxt er) (some 10),
         escape_csv (fvStr di) (some 10),
         escape_csv (secondsPre se) (some 8),
         escape_csv de Option.none,
         escape_csv si Option.none,
         escape_csv (jsonDumps jm) Option.none,
         ccTxt] ∧
      splitCsv row =
        [escape_csv (fvStr sh) (some 10),
         escape_csv (errsTxt er) (some 10),
         escape_csv (fvStr di) (some 10),
         escape_csv (secondsPre se) (some 8),
         escape_csv de Option.none,
         escape_csv si Option.none,
         escape_csv (jsonDumps jm) Option.none,
         ccTxt] := by
  rcases hcs : ccStep cc false with ⟨res, cc2⟩
  cases res with
  | error e =>
    rw [csv_line_eq_error hcs sh er di se de si jm] at h
    cases h
  | ok ccTxt =>
    rw [csv_line_eq_ok hcs sh er di se de si jm] at h
    have hrow : row = rowJoin
        [escape_csv (fvStr sh) (some 10),
         escape_csv (errsTxt er) (some 10),
         escape_csv (fvStr di) (some 10),
         escape_csv (secondsPre se) (some 8),
         escape_csv de Option.none,
         escape_csv si Option.none,
         escape_csv (jmTxt jm false) Option.none,
         ccTxt] := by
      cases h
      rfl
    refine ⟨ccTxt, cc2, rfl, ?_, ?_⟩
    · rw [hrow]
      rfl
    · rw [hrow, show jmTxt jm false = jsonDumps jm from rfl]
      refine splitCsv_rowJoin _ (by simp) ?_
      intro f hf
      simp only [List.mem_cons, List.not_mem_nil, or_false] at hf
      rcases hf with rfl | rfl | rfl | rfl | rfl | rfl | rfl | rfl
      · exact SafeF_escape _ _
      · exact SafeF_escape _ _
      · exact SafeF_escape _ _
      · exact SafeF_escape _ _
      · exact SafeF_escape _ _
      · exact SafeF_escape _ _
      · exact SafeF_escape _ _
      · exact SafeF_ccTxt hcs

/-! ## Claim theorems -/

/-- C2, counterexample: `escape_csv` does not leave the field text of an
unquoted value unchanged after removing the record terminator — `strip()`
also removes the value's own leading/trailing whitespace (`" a "`
becomes `a`); moreover the empty value is quoted to `""` and a carriage
return also forces quoting, neither of which the claim's quoting
condition admits. -/
theorem claim_c2_counterexample :
    escape_csv [' ', 'a', ' '] Option.none = ['a'] ∧
    [' ', 'a', ' '] ≠ ['a'] ∧
    ¬ (',' ∈ [' ', 'a', ' '] ∨ '"' ∈ [' ', 'a', ' '] ∨ '\n' ∈ [' ', 'a', ' ']) ∧
    escape_csv [] Option.none = ['"', '"'] ∧
    escape_csv ['a', '\r'] Option.none = ['"', 'a', '\r', '"'] := by
  refine ⟨by decide, by decide, by decide, by decide, by decide⟩

/-- C2 (amended): `escape_csv value None` renders the value as one
RFC-4180-style CSV field — quoted with doubled internal quotes exactly
when the value contains a comma, quote, newline, or carriage return, or is
empty; otherwise unquoted — and then strips Python whitespace from both
ends of the encoded field.  On a quoted field this removes exactly the
trailing record terminator, leaving the field text unchanged; on an
unquoted field it also removes the value's own leading and trailing
whitespace.  A given width only left-pads the finished field with
spaces. -/
theorem claim_c2 (s : List Char) :
    (needsQuoteSpec s → escape_csv s Option.none = '"' :: doubleQuotes s ++ ['"']) ∧
    (¬ needsQuoteSpec s → escape_csv s Option.none = pyStrip s) ∧
    (∀ w, escape_csv s (some w) = rjust w (escape_csv s Option.none)) := by
  refine ⟨?_, ?_, ?_⟩
  · intro h
    exact escape_quoted ((needsQuote_iff s).mpr h)
  · intro h
    refine escape_unquoted ?_
    cases hq : needsQuote s
    · rfl
    · exact absurd ((needsQuote_iff s).mp hq) h
  · intro w
    rfl

/-- C2 witness: the amended claim at the comma-bearing value `a,b` and at
the padded plain value `x`. -/
theorem claim_c2_witness :
    escape_csv ['a', ',', 'b'] Option.none = ['"', 'a', ',', 'b', '"'] ∧
    escape_csv ['x'] (some 3) = [' ', ' ', 'x'] := by
  constructor
  · rw [(claim_c2 ['a', ',', 'b']).1 (Or.inl (by decide))]
    decide
  · rw [(claim_c2 ['x']).2.2 3,
      (claim_c2 ['x']).2.1 (by decide)]
    decide

theorem unescapeField_quote_cons (rest : List Char) :
    unescapeField ('"' :: rest) =
      if rest.getLast? = some '"' then undouble rest.dropLast else '"' :: rest := rfl

/-- C4: for every text containing a comma, quote or newline, escaping,
then splitting the row on commas outside quotes and unescaping each field
recovers the original text exactly. -/
theorem claim_c4 (s : List Char) (h : ',' ∈ s ∨ '"' ∈ s ∨ '\n' ∈ s) :
    (splitCsv (escape_csv s Option.none)).map unescapeField = [s] := by
  have hq : needsQuote s = true := by
    refine (needsQuote_iff s).mpr ?_
    rcases h with h | h | h
    · exact Or.inl h
    · exact Or.inr (Or.inl h)
    · exact Or.inr (Or.inr (Or.inl h))
  rw [escape_quoted hq]
  show (splitCsvAux false [] (('"' :: doubleQuotes s) ++ ['"'])).map unescapeField = [s]
  rw [List.cons_append]
  rw [splitCsvAux_other false [] _ (by simp), if_pos rfl]
  simp only [Bool.not_false]
  rw [show doubleQuotes s ++ ['"'] = doubleQuotes s ++ '"' :: ([] : List Char) from rfl]
  rw [dq_scan s ['"'] []]
  rw [splitCsvAux_nil]
  rw [show (('"' :: (doubleQuotes s).reverse) ++ ['"']).reverse =
      '"' :: (doubleQuotes s ++ ['"']) by simp]
  rw [List.map_singleton, unescapeField_quote_cons]
  rw [if_pos (List.getLast?_concat (doubleQuotes s))]
  rw [List.dropLast_concat, undouble_doubleQuotes]

/-- C4 witness: the round trip at the value `a,b`. -/
theorem claim_c4_witness :
    (splitCsv (escape_csv ['a', ',', 'b'] Option.none)).map unescapeField =
      [['a', ',', 'b']] :=
  claim_c4 ['a', ',', 'b'] (Or.inl (by decide))

theorem secondsPre_float (q : ℚ) :
    secondsPre (.float q) =
      if q < 1 then fmtFixed q 3 else if q < 10 then fmtFixed q 2 else fmtFixed q 1 := rfl

/-- C5: a float `seconds` is rendered with 3 decimal places when below 1,
2 decimal places when in `[1, 10)` and 1 decimal place when at least 10
(`0.5` renders as `0.500`, `5.25` as `5.25`, `12.34` as `12.3`), while a
text `seconds` passes through unchanged before escaping. -/
theorem claim_c5 (q : ℚ) :
    (q < 1 → decCount (secondsPre (.float q)) = 3 ∧ '.' ∈ secondsPre (.float q)) ∧
    (1 ≤ q → q < 10 → decCount (secondsPre (.float q)) = 2 ∧ '.' ∈ secondsPre (.float q)) ∧
    (10 ≤ q → decCount (secondsPre (.float q)) = 1 ∧ '.' ∈ secondsPre (.float q)) ∧
    (∀ s, secondsPre (.str s) = s) ∧
    secondsPre (.float (1 / 2)) = "0.500".toList ∧
    secondsPre (.float (21 / 4)) = "5.25".toList ∧
    secondsPre (.float (617 / 50)) = "12.3".toList := by
  have e1 : ((⟨1, 2, by decide, by decide⟩ : ℚ)) = 1 / 2 := by
    rw [Rat.mk'_eq_divInt, Rat.divInt_eq_div]
    norm_num
  have e2 : ((⟨21, 4, by decide, by decide⟩ : ℚ)) = 21 / 4 := by
    rw [Rat.mk'_eq_divInt, Rat.divInt_eq_div]
    norm_num
  have e3 : ((⟨617, 50, by decide, by decide⟩ : ℚ)) = 617 / 50 := by
    rw [Rat.mk'_eq_divInt, Rat.divInt_eq_div]
    norm_num
  refine ⟨?_, ?_, ?_, fun s => rfl, ?_, ?_, ?_⟩
  · intro h
    rw [secondsPre_float, if_pos h]
    exact fmtFixed_decCount q 3 (by norm_num)
  · intro h1 h10
    rw [secondsPre_float, if_neg (by exact not_lt.mpr h1), if_pos h10]
    exact fmtFixed_decCount q 2 (by norm_num)
  · intro h10
    rw [secondsPre_float, if_neg (by
        exact not_lt.mpr (le_trans (by norm_num) h10)),
      if_neg (not_lt.mpr h10)]
    exact fmtFixed_decCount q 1 (by norm_num)
  · rw [← e1]
    decide
  · rw [← e2]
    decide
  · rw [← e3]
    decide

/-- C5 witness: the rendering rules at 0.5 (three decimals). -/
theorem claim_c5_witness :
    decCount (secondsPre (.float (1 / 2))) = 3 ∧
    secondsPre (.float (1 / 2)) = "0.500".toList :=
  ⟨((claim_c5 (1 / 2)).1 (by norm_num)).1, (claim_c5 (1 / 2)).2.2.2.2.1⟩

theorem getLast?_append_cons (a : List Char) (c : Char) (b : List Char) :
    (a ++ c :: b).getLast? = (c :: b).getLast? := by
  rw [List.getLast?_append]
  rw [List.getLast?_cons]
  simp

theorem rowJoin_two_or_more (f g : List Char) (rest : List (List Char)) :
    rowJoin (f :: g :: rest) = f ++ ',' :: rowJoin (g :: rest) := rfl

theorem row8_getLast (f1 f2 f3 f4 f5 f6 f7 ccTxt : List Char) :
    (rowJoin [f1, f2, f3, f4, f5, f6, f7, ccTxt]).getLast? =
      if ccTxt = [] then some ',' else ccTxt.getLast? := by
  rw [rowJoin_two_or_more, getLast?_append_cons]
  rw [show rowJoin [f2, f3, f4, f5, f6, f7, ccTxt] =
      f2 ++ ',' :: rowJoin [f3, f4, f5, f6, f7, ccTxt] from rfl]
  rw [show (',' :: (f2 ++ ',' :: rowJoin [f3, f4, f5, f6, f7, ccTxt])) =
      (',' :: f2) ++ ',' :: rowJoin [f3, f4, f5, f6, f7, ccTxt] from rfl]
  rw [getLast?_append_cons]
  rw [show rowJoin [f3, f4, f5, f6, f7, ccTxt] =
      f3 ++ ',' :: rowJoin [f4, f5, f6, f7, ccTxt] from rfl]
  rw [show (',' :: (f3 ++ ',' :: rowJoin [f4, f5, f6, f7, ccTxt])) =
      (',' :: f3) ++ ',' :: rowJoin [f4, f5, f6, f7, ccTxt] from rfl]
  rw [getLast?_append_cons]
  rw [show rowJoin [f4, f5, f6, f7, ccTxt] =
      f4 ++ ',' :: rowJoin [f5, f6, f7, ccTxt] from rfl]
  rw [show (',' :: (f4 ++ ',' :: rowJoin [f5, f6, f7, ccTxt])) =
      (',' :: f4) ++ ',' :: rowJoin [f5, f6, f7, ccTxt] from rfl]
  rw [getLast?_append_cons]
  rw [show rowJoin [f5, f6, f7, ccTxt] =
      f5 ++ ',' :: rowJoin [f6, f7, ccTxt] from rfl]
  rw [show (',' :: (f5 ++ ',' :: rowJoin [f6, f7, ccTxt])) =
      (',' :: f5) ++ ',' :: rowJoin [f6, f7, ccTxt] from rfl]
  rw [getLast?_append_cons]
  rw [show rowJoin [f6, f7, ccTxt] = f6 ++ ',' :: rowJoin [f7, ccTxt] from rfl]
  rw [show (',' :: (f6 ++ ',' :: rowJoin [f7, ccTxt])) =
      (',' :: f6) ++ ',' :: rowJoin [f7, ccTxt] from rfl]
  rw [getLast?_append_cons]
  rw [show rowJoin [f7, ccTxt] = f7 ++ ',' :: ccTxt from rfl]
  rw [show (',' :: (f7 ++ ',' :: ccTxt)) = (',' :: f7) ++ ',' :: ccTxt from rfl]
  rw [getLast?_append_cons]
  cases ccTxt with
  | nil => simp
  | cons c t => simp [List.getLast?_cons_cons]

theorem escape_none_getLast_ne_newline (t : List Char)
    (h : escape_csv t Option.none ≠ []) :
    escape_csv t Option.none ≠ [] → (escape_csv t Option.none).getLast? ≠ some '\n' := by
  intro _
  have he : escape_csv t Option.none = pyStrip (csvWriterow t) := rfl
  rw [he] at h ⊢
  rcases pyStrip_getLast h with ⟨c, hc, hw⟩
  rw [hc]
  intro hcontra
  injection hcontra with h2
  subst h2
  exact absurd hw (by decide)

theorem splitCsv_row8 {f1 f2 f3 f4 f5 f6 f7 f8 : List Char}
    (h1 : SafeF f1) (h2 : SafeF f2) (h3 : SafeF f3) (h4 : SafeF f4)
    (h5 : SafeF f5) (h6 : SafeF f6) (h7 : SafeF f7) (h8 : SafeF f8) :
    splitCsv (rowJoin [f1, f2, f3, f4, f5, f6, f7, f8]) =
      [f1, f2, f3, f4, f5, f6, f7, f8] := by
  refine splitCsv_rowJoin _ (by simp) ?_
  intro f hf
  simp only [List.mem_cons, List.not_mem_nil, or_false] at hf
  rcases hf with rfl | rfl | rfl | rfl | rfl | rfl | rfl | rfl
  exacts [h1, h2, h3, h4, h5, h6, h7, h8]

/-- C7: the header constant and every data row have the same field layout:
splitting on commas outside quotes yields exactly 8 fields, in the fixed
column order (shots, errors, discards, seconds, decoder, strong_id,
json_metadata, custom_counts), with no trailing newline. -/
theorem claim_c7 :
    (splitCsv CSV_HEADER =
      ["     shots".toList, "    errors".toList, "  discards".toList,
       " seconds".toList, "decoder".toList, "strong_id".toList,
       "json_metadata".toList, "custom_counts".toList] ∧
     CSV_HEADER.getLast? ≠ some '\n') ∧
    ∀ (sh : FieldVal) (er : EVal) (di : FieldVal) (se : SVal)
      (de si : List Char) (jm : JVal) (cc : CC) (row : List Char),
      (csv_line sh er di se de si jm cc false).fst = .ok row →
      (splitCsv row).length = 8 ∧
      (splitCsv row).take 7 =
        [escape_csv (fvStr sh) (some 10),
         escape_csv (errsTxt er) (some 10),
         escape_csv (fvStr di) (some 10),
         escape_csv (secondsPre se) (some 8),
         escape_csv de Option.none,
         escape_csv si Option.none,
         escape_csv (jsonDumps jm) Option.none] ∧
      row.getLast? ≠ some '\n' := by
  refine ⟨⟨by decide, by decide⟩, ?_⟩
  intro sh er di se de si jm cc row h
  obtain ⟨ccTxt, cc2, hcs, hrow, hsplit⟩ := csv_line_row_split h
  refine ⟨by rw [hsplit]; rfl, by rw [hsplit]; rfl, ?_⟩
  rw [hrow, row8_getLast]
  by_cases he : ccTxt = []
  · rw [if_pos he]
    decide
  · rw [if_neg he]
    rcases ccStep_ok_shape hcs with rfl | ⟨t, rfl⟩
    · exact absurd rfl he
    · exact escape_none_getLast_ne_newline t he he

/-- C7 witness: the data-row layout at a concrete call. -/
theorem claim_c7_witness :
    (splitCsv "       100,         1,         0,       s,d,i,null,".toList).length = 8 := by
  have h : (csv_line (.int 100) (.int 1) (.int 0) (.str ['s']) ['d'] ['i']
      JVal.null CC.noneV false).fst =
      .ok "       100,         1,         0,       s,d,i,null,".toList := rfl
  exact (claim_c7.2 (.int 100) (.int 1) (.int 0) (.str ['s']) ['d'] ['i']
    JVal.null CC.noneV _ h).1

/-- C9: with `custom_counts` empty or absent (and `is_header` false) the
call succeeds, the caller's mapping is left as passed, and the rendered
`custom_counts` field is the empty string while its column is still
present (the row still splits into 8 fields, the last being empty). -/
theorem claim_c9 (sh : FieldVal) (er : EVal) (di : FieldVal) (se : SVal)
    (de si : List Char) (jm : JVal) (cc : CC)
    (h : cc = CC.dict [] ∨ cc = CC.noneV) :
    ∃ row, csv_line sh er di se de si jm cc false = (.ok row, cc) ∧
      (splitCsv row).getLast? = some [] ∧ (splitCsv row).length = 8 := by
  have hcs : ccStep cc false = (.ok [], cc) := by
    rcases h with rfl | rfl
    · exact ccStep_dict_nil
    · exact ccStep_noneV
  have h1 := csv_line_eq_ok hcs sh er di se de si jm
  have hsp : splitCsv (rowJoin
      [escape_csv (fvStr sh) (some 10),
       escape_csv (errsTxt er) (some 10),
       escape_csv (fvStr di) (some 10),
       escape_csv (secondsPre se) (some 8),
       escape_csv de Option.none,
       escape_csv si Option.none,
       escape_csv (jmTxt jm false) Option.none,
       []]) =
      [escape_csv (fvStr sh) (some 10),
       escape_csv (errsTxt er) (some 10),
       escape_csv (fvStr di) (some 10),
       escape_csv (secondsPre se) (some 8),
       escape_csv de Option.none,
       escape_csv si Option.none,
       escape_csv (jmTxt jm false) Option.none,
       []] :=
    splitCsv_row8 (SafeF_escape _ _) (SafeF_escape _ _) (SafeF_escape _ _)
      (SafeF_escape _ _) (SafeF_escape _ _) (SafeF_escape _ _)
      (SafeF_escape _ _) SafeF_nil
  refine ⟨_, h1, ?_, ?_⟩
  · rw [hsp]
    rfl
  · rw [hsp]
    rfl

/-- C9 witness: empty dict and absent (`None`) custom counts at a concrete
call. -/
theorem claim_c9_witness :
    (∃ row, csv_line (.int 1) (.int 0) (.int 0) (.str ['s']) ['d'] ['i']
        JVal.null (CC.dict []) false = (.ok row, CC.dict []) ∧
      (splitCsv row).getLast? = some [] ∧ (splitCsv row).length = 8) ∧
    (∃ row, csv_line (.int 1) (.int 0) (.int 0) (.str ['s']) ['d'] ['i']
        JVal.null CC.noneV false = (.ok row, CC.noneV) ∧
      (splitCsv row).getLast? = some [] ∧ (splitCsv row).length = 8) :=
  ⟨claim_c9 (.int 1) (.int 0) (.int 0) (.str ['s']) ['d'] ['i'] JVal.null
      (CC.dict []) (Or.inl rfl),
   claim_c9 (.int 1) (.int 0) (.int 0) (.str ['s']) ['d'] ['i'] JVal.null
      CC.noneV (Or.inr rfl)⟩

/-- C10: in a data row an absent (`None`) `json_metadata` renders as the
four-character literal `null`, not as an empty field. -/
theorem claim_c10 (sh : FieldVal) (er : EVal) (di : FieldVal) (se : SVal)
    (de si : List Char) (cc : CC) (row : List Char)
    (h : (csv_line sh er di se de si JVal.null cc false).fst = .ok row) :
    (splitCsv row).get? 6 = some "null".toList ∧ "null".toList ≠ ([] : List Char) := by
  obtain ⟨ccTxt, cc2, hcs, hrow, hsplit⟩ := csv_line_row_split h
  refine ⟨?_, by decide⟩
  rw [hsplit]
  show some (escape_csv (jsonDumps JVal.null) Option.none) = some "null".toList
  decide

/-- C10 witness: a concrete data row with `json_metadata=None`. -/
theorem claim_c10_witness :
    (splitCsv "       100,         1,         0,       s,d,i,null,".toList).get? 6 =
      some "null".toList := by
  have h : (csv_line (.int 100) (.int 1) (.int 0) (.str ['s']) ['d'] ['i']
      JVal.null CC.noneV false).fst =
      .ok "       100,         1,         0,       s,d,i,null,".toList := rfl
  exact (claim_c10 (.int 100) (.int 1) (.int 0) (.str ['s']) ['d'] ['i']
    CC.noneV _ h).1

/-- C1, counterexample: at `custom_counts={"x":1,"y":2}` the rendered
custom_counts field of the output row is the once-escaped JSON text, and
escaping that text again as a CSV field (what double-encoding would
produce) yields something else — so the column is not double-encoded. -/
theorem claim_c1_counterexample :
    (csv_line (.int 100) (.int 1) (.int 0) (.str ['s']) ['d'] ['i'] JVal.null
        (CC.dict [("x".toList, CVal.int 1), ("y".toList, CVal.int 2)]) false).fst =
      .ok ("       100,         1,         0,       s,d,i,null," ++
        "\"\x7b\"\"x\"\":1,\"\"y\"\":2\x7d\"").toList ∧
    (splitCsv ("       100,         1,         0,       s,d,i,null," ++
        "\"\x7b\"\"x\"\":1,\"\"y\"\":2\x7d\"").toList).getLast? =
      some "\"\x7b\"\"x\"\":1,\"\"y\"\":2\x7d\"".toList ∧
    "\"\x7b\"\"x\"\":1,\"\"y\"\":2\x7d\"".toList =
      escape_csv (jsonDumps (objOfList
        [("x".toList, .int 1), ("y".toList, .int 2)])) Option.none ∧
    escape_csv "\"\x7b\"\"x\"\":1,\"\"y\"\":2\x7d\"".toList Option.none ≠
      "\"\x7b\"\"x\"\":1,\"\"y\"\":2\x7d\"".toList := by
  exact ⟨rfl, rfl, rfl, by decide⟩

/-- C1 (amended): for every non-empty `custom_counts` mapping, the
rendered custom_counts field of a successful data row is the canonical
JSON of the coerced mapping escaped exactly once during pre-formatting;
the final escaping pass does not touch it again. -/
theorem claim_c1 (sh : FieldVal) (er : EVal) (di : FieldVal) (se : SVal)
    (de si : List Char) (jm : JVal) (entries : List (List Char × CVal))
    (row : List Char) (hne : entries ≠ [])
    (h : (csv_line sh er di se de si jm (.dict entries) false).fst = .ok row) :
    (splitCsv row).getLast? =
      some (escape_csv (jsonDumps (objOfList
        ((coerceCounts entries).1.map fun kv => (kv.1, cvalToJson kv.2))))
        Option.none) := by
  obtain ⟨ccTxt, cc2, hcs, hrow, hsplit⟩ := csv_line_row_split h
  rcases ccStep_dict_outcome entries hne with ⟨hok, hstep⟩ | ⟨err, hsome, hstep⟩
  · rw [hstep] at hcs
    injection hcs with hc1 hc2
    injection hc1 with hc3
    rw [hsplit, ← hc3]
    rfl
  · rw [csv_line_eq_error hstep sh er di se de si jm] at h
    cases h

/-- C1 witness: the amended claim at the counterexample's input. -/
theorem claim_c1_witness :
    (splitCsv ("       100,         1,         0,       s,d,i,null," ++
        "\"\x7b\"\"x\"\":1,\"\"y\"\":2\x7d\"").toList).getLast? =
      some (escape_csv (jsonDumps (objOfList
        ((coerceCounts [("x".toList, CVal.int 1), ("y".toList, CVal.int 2)]).1.map
          fun kv => (kv.1, cvalToJson kv.2)))) Option.none) :=
  claim_c1 (.int 100) (.int 1) (.int 0) (.str ['s']) ['d'] ['i'] JVal.null
    [("x".toList, CVal.int 1), ("y".toList, CVal.int 2)] _ (by decide) rfl

/-- C3, counterexample: `csv_line` mutates its caller's `custom_counts`
mapping — after a call with `{"x": 3.5}` the mapping holds the int 3. -/
theorem claim_c3_counterexample :
    (csv_line (.int 1) (.int 0) (.int 0) (.str ['s']) ['d'] ['i'] JVal.null
        (CC.dict [("x".toList, CVal.float ⟨7, 2, by decide, by decide⟩)]) false).snd =
      CC.dict [("x".toList, CVal.int 3)] ∧
    CC.dict [("x".toList, CVal.float ⟨7, 2, by decide, by decide⟩)] ≠
      CC.dict [("x".toList, CVal.int 3)] := by
  exact ⟨rfl, by decide⟩

theorem ccStep_str (s2 : List Char) :
    ccStep (.str s2) false =
      if s2.isEmpty then (.ok [], .str s2) else (.error .typeError, .str s2) := by
  unfold ccStep
  rw [if_neg (by simp)]

/-- C3 (amended): `csv_line` is deterministic and reads its arguments, but
it is not pure on `custom_counts`: a dict argument is mutated in place,
each value being replaced by its integer coercion (keys and insertion
order preserved; on a failed coercion only the entries before the failing
one are replaced).  Header-mode calls and `None` or string arguments are
left unmodified. -/
theorem claim_c3 (sh : FieldVal) (er : EVal) (di : FieldVal) (se : SVal)
    (de si : List Char) (jm : JVal) :
    (∀ cc, (csv_line sh er di se de si jm cc true).snd = cc) ∧
    ((csv_line sh er di se de si jm CC.noneV false).snd = CC.noneV) ∧
    (∀ s2, (csv_line sh er di se de si jm (CC.str s2) false).snd = CC.str s2) ∧
    (∀ entries,
      (csv_line sh er di se de si jm (CC.dict entries) false).snd =
        CC.dict (coerceCounts entries).1 ∧
      (coerceCounts entries).1.map Prod.fst = entries.map Prod.fst ∧
      ((coerceCounts entries).2 = Option.none →
        (coerceCounts entries).1 =
          entries.map fun kv => (kv.1, CVal.int (cvalIntTrunc kv.2)))) := by
  refine ⟨?_, ?_, ?_, ?_⟩
  · intro cc
    rw [csv_line_eq_ok (ccStep_header cc) sh er di se de si jm]
  · rw [csv_line_eq_ok ccStep_noneV sh er di se de si jm]
  · intro s2
    by_cases hE : s2.isEmpty = true
    · rw [csv_line_eq_ok (by rw [ccStep_str, if_pos hE]) sh er di se de si jm]
    · rw [csv_line_eq_error (by
        rw [ccStep_str, if_neg hE]) sh er di se de si jm]
  · intro entries
    refine ⟨?_, coerceCounts_keys entries, coerceCounts_ok_vals entries⟩
    rcases entries with _ | ⟨e, t⟩
    · rw [csv_line_eq_ok ccStep_dict_nil sh er di se de si jm]
      rfl
    · rcases ccStep_dict_outcome (e :: t) (by simp) with ⟨hok, hstep⟩ | ⟨err, hsome, hstep⟩
      · rw [csv_line_eq_ok hstep sh er di se de si jm]
      · rw [csv_line_eq_error hstep sh er di se de si jm]

/-- C3 witness: the mutation characterization at the counterexample's
input (the dict `{"x": 3.5}` ends as `{"x": 3}`), and the no-mutation
cases at `None`. -/
theorem claim_c3_witness :
    (csv_line (.int 1) (.int 0) (.int 0) (.str ['s']) ['d'] ['i'] JVal.null
        (CC.dict [("x".toList, CVal.float ⟨7, 2, by decide, by decide⟩)]) false).snd =
      CC.dict (coerceCounts [("x".toList, CVal.float ⟨7, 2, by decide, by decide⟩)]).1 ∧
    (csv_line (.int 1) (.int 0) (.int 0) (.str ['s']) ['d'] ['i'] JVal.null
        CC.noneV false).snd = CC.noneV :=
  ⟨((claim_c3 (.int 1) (.int 0) (.int 0) (.str ['s']) ['d'] ['i'] JVal.null).2.2.2
      [("x".toList, CVal.float ⟨7, 2, by decide, by decide⟩)]).1,
   (claim_c3 (.int 1) (.int 0) (.int 0) (.str ['s']) ['d'] ['i'] JVal.null).2.1⟩

/-- C8: if a non-empty `custom_counts` contains a value whose integer
coercion fails, `csv_line` fails with the propagated error (Python's
`ValueError` from `int(...)`, the spec's CoercionError) and produces no
output row; the mapping's keys and order are preserved, values before the
failing key possibly already coerced. -/
theorem claim_c8 (sh : FieldVal) (er : EVal) (di : FieldVal) (se : SVal)
    (de si : List Char) (jm : JVal) (entries : List (List Char × CVal))
    (k : List Char) (v : CVal) (hmem : (k, v) ∈ entries) (e : PyErr)
    (hv : pyInt v = .error e) :
    (csv_line sh er di se de si jm (.dict entries) false).fst =
      .error PyErr.valueError ∧
    (csv_line sh er di se de si jm (.dict entries) false).snd =
      CC.dict (coerceCounts entries).1 ∧
    (coerceCounts entries).1.map Prod.fst = entries.map Prod.fst := by
  have hne : entries ≠ [] := by
    intro he
    rw [he] at hmem
    cases hmem
  have herr := coerceCounts_err hmem hv
  rcases ccStep_dict_outcome entries hne with ⟨hok, hstep⟩ | ⟨err, hsome, hstep⟩
  · rw [herr] at hok
    cases hok
  · rw [herr] at hsome
    injection hsome with hsome2
    subst hsome2
    rw [csv_line_eq_error hstep sh er di se de si jm]
    exact ⟨rfl, rfl, coerceCounts_keys entries⟩

/-- C8 witness: a concrete failing coercion (`int("a")` raises). -/
theorem claim_c8_witness :
    (csv_line (.int 1) (.int 0) (.int 0) (.str ['s']) ['d'] ['i'] JVal.null
        (.dict [("k".toList, CVal.str ['a'])]) false).fst =
      .error PyErr.valueError :=
  (claim_c8 (.int 1) (.int 0) (.int 0) (.str ['s']) ['d'] ['i'] JVal.null
    [("k".toList, CVal.str ['a'])] "k".toList (CVal.str ['a'])
    (List.mem_cons_self _ _) PyErr.valueError rfl).1

/-! ## Congruence helpers for C6 -/

theorem csv_line_fst_congr_jm {jm1 jm2 : JVal} (h : jsonDumps jm1 = jsonDumps jm2)
    (sh : FieldVal) (er : EVal) (di : FieldVal) (se : SVal) (de si : List Char)
    (cc : CC) :
    (csv_line sh er di se de si jm1 cc false).fst =
    (csv_line sh er di se de si jm2 cc false).fst := by
  rcases hcs : ccStep cc false with ⟨res, cc2⟩
  cases res with
  | error e =>
    rw [csv_line_eq_error hcs sh er di se de si jm1,
      csv_line_eq_error hcs sh er di se de si jm2]
  | ok t =>
    rw [csv_line_eq_ok hcs sh er di se de si jm1,
      csv_line_eq_ok hcs sh er di se de si jm2]
    dsimp only
    rw [show jmTxt jm1 false = jsonDumps jm1 from rfl,
      show jmTxt jm2 false = jsonDumps jm2 from rfl, h]

theorem csv_line_fst_congr_errs {er1 er2 : EVal} (h : errsTxt er1 = errsTxt er2)
    (sh : FieldVal) (di : FieldVal) (se : SVal) (de si : List Char) (jm : JVal)
    (cc : CC) :
    (csv_line sh er1 di se de si jm cc false).fst =
    (csv_line sh er2 di se de si jm cc false).fst := by
  rcases hcs : ccStep cc false with ⟨res, cc2⟩
  cases res with
  | error e =>
    rw [csv_line_eq_error hcs sh er1 di se de si jm,
      csv_line_eq_error hcs sh er2 di se de si jm]
  | ok t =>
    rw [csv_line_eq_ok hcs sh er1 di se de si jm,
      csv_line_eq_ok hcs sh er2 di se de si jm]
    dsimp only
    rw [h]

theorem csv_line_fst_congr_cc {cc1 cc2 : CC}
    (h : (ccStep cc1 false).fst = (ccStep cc2 false).fst)
    (sh : FieldVal) (er : EVal) (di : FieldVal) (se : SVal) (de si : List Char)
    (jm : JVal) :
    (csv_line sh er di se de si jm cc1 false).fst =
    (csv_line sh er di se de si jm cc2 false).fst := by
  rcases h1 : ccStep cc1 false with ⟨res1, d1⟩
  rcases h2 : ccStep cc2 false with ⟨res2, d2⟩
  have hres : res1 = res2 := by
    rw [h1, h2] at h
    exact h
  subst hres
  cases res1 with
  | error e =>
    rw [csv_line_eq_error h1 sh er di se de si jm,
      csv_line_eq_error h2 sh er di se de si jm]
  | ok t =>
    rw [csv_line_eq_ok h1 sh er di se de si jm,
      csv_line_eq_ok h2 sh er di se de si jm]

theorem ccStep_dict_fst_perm {l1 l2 : List (List Char × CVal)} (hp : l1.Perm l2)
    (nd : (l1.map Prod.fst).Nodup) :
    (ccStep (.dict l1) false).fst = (ccStep (.dict l2) false).fst := by
  cases l1 with
  | nil =>
    have h2 : l2 = [] := hp.symm.eq_nil
    subst h2
    rfl
  | cons e1 t1 =>
    have hne1 : (e1 :: t1) ≠ [] := by simp
    have hne2 : l2 ≠ [] := by
      intro he
      subst he
      simpa using hp.eq_nil
    by_cases hok : (coerceCounts (e1 :: t1)).2 = Option.none
    · have hok2 : (coerceCounts l2).2 = Option.none :=
        (coerceCounts_ok_iff l2).mpr
          (fun kv hm => (coerceCounts_ok_iff _).mp hok kv (hp.mem_iff.mpr hm))
      rcases ccStep_dict_outcome (e1 :: t1) hne1 with ⟨_, hstep1⟩ | ⟨err, hsome, _⟩
      swap
      · rw [hok] at hsome
        cases hsome
      rcases ccStep_dict_outcome l2 hne2 with ⟨_, hstep2⟩ | ⟨err, hsome, _⟩
      swap
      · rw [hok2] at hsome
        cases hsome
      rw [hstep1, hstep2]
      dsimp only
      have hv1 := coerceCounts_ok_vals _ hok
      have hv2 := coerceCounts_ok_vals _ hok2
      rw [hv1, hv2, List.map_map, List.map_map]
      have hperm : (l2.map ((fun kv => (kv.1, cvalToJson kv.2)) ∘
          fun kv => (kv.1, CVal.int (cvalIntTrunc kv.2)))).Perm
          ((e1 :: t1).map ((fun kv => (kv.1, cvalToJson kv.2)) ∘
          fun kv => (kv.1, CVal.int (cvalIntTrunc kv.2)))) :=
        (hp.map _).symm
      have hnd : (((l2.map ((fun kv => (kv.1, cvalToJson kv.2)) ∘
          fun kv => (kv.1, CVal.int (cvalIntTrunc kv.2)))).map Prod.fst)).Nodup := by
        have : (l2.map ((fun kv => (kv.1, cvalToJson kv.2)) ∘
            fun kv => (kv.1, CVal.int (cvalIntTrunc kv.2)))).map Prod.fst =
            l2.map Prod.fst := by
          rw [List.map_map]
          rfl
        rw [this]
        exact (hp.map Prod.fst).nodup_iff.mp nd
      have hj : jsonDumps (objOfList (l2.map ((fun kv => (kv.1, cvalToJson kv.2)) ∘
            fun kv => (kv.1, CVal.int (cvalIntTrunc kv.2))))) =
          jsonDumps (objOfList ((e1 :: t1).map ((fun kv => (kv.1, cvalToJson kv.2)) ∘
            fun kv => (kv.1, CVal.int (cvalIntTrunc kv.2))))) :=
        congrArg dumpRaw (canon_obj_perm hperm hnd)
      rw [hj]
    · have hfail : ∃ kv ∈ (e1 :: t1), ∃ e2, pyInt kv.2 = .error e2 := by
        by_contra hall
        push_neg at hall
        refine hok ((coerceCounts_ok_iff _).mpr ?_)
        intro kv hm
        cases hpi : pyInt kv.2 with
        | ok n => exact ⟨n, rfl⟩
        | error e2 => exact absurd hpi (hall kv hm e2)
      obtain ⟨kv, hm, e2, hpi⟩ := hfail
      have herr1 := coerceCounts_err hm hpi
      have herr2 := coerceCounts_err (hp.subset hm) hpi
      rcases ccStep_dict_outcome (e1 :: t1) hne1 with ⟨hok1, _⟩ | ⟨err1, hsome1, hstep1⟩
      · rw [herr1] at hok1
        cases hok1
      rcases ccStep_dict_outcome l2 hne2 with ⟨hok2, _⟩ | ⟨err2, hsome2, hstep2⟩
      · rw [herr2] at hok2
        cases hok2
      rw [herr1] at hsome1
      rw [herr2] at hsome2
      injection hsome1 with hs1
      injection hsome2 with hs2
      subst hs1
      subst hs2
      rw [hstep1, hstep2]

/-- C6: in data rows every mapping-valued field is serialized canonically
(compact separators, keys sorted): the whole returned row is independent
of the insertion order of `json_metadata`, of a dict `errors`, and of a
non-empty `custom_counts` (given unique keys); a non-mapping `errors`
passes through unchanged before escaping; the serialized keys of any
mapping come out sorted, one per original key; and `{"b":1,"a":2}`
serializes as the sorted compact text. -/
theorem claim_c6 :
    (∀ (sh : FieldVal) (er : EVal) (di : FieldVal) (se : SVal)
       (de si : List Char) (cc : CC) (l1 l2 : List (List Char × JVal)),
      l1.Perm l2 → (l1.map Prod.fst).Nodup →
      (csv_line sh er di se de si (objOfList l1) cc false).fst =
      (csv_line sh er di se de si (objOfList l2) cc false).fst) ∧
    (∀ (sh : FieldVal) (di : FieldVal) (se : SVal) (de si : List Char)
       (jm : JVal) (cc : CC) (e1 e2 : List (List Char × Int)),
      e1.Perm e2 → (e1.map Prod.fst).Nodup →
      (csv_line sh (.dict e1) di se de si jm cc false).fst =
      (csv_line sh (.dict e2) di se de si jm cc false).fst) ∧
    (∀ n, errsTxt (.int n) = intRepr n) ∧
    (∀ s2, errsTxt (.str s2) = s2) ∧
    (∀ (sh : FieldVal) (er : EVal) (di : FieldVal) (se : SVal)
       (de si : List Char) (jm : JVal) (l1 l2 : List (List Char × CVal)),
      l1.Perm l2 → (l1.map Prod.fst).Nodup →
      (csv_line sh er di se de si jm (.dict l1) false).fst =
      (csv_line sh er di se de si jm (.dict l2) false).fst) ∧
    (∀ l : List (List Char × JVal),
      (objKeys (canon (objOfList l))).Pairwise (fun a b => strLe a b = true) ∧
      (objKeys (canon (objOfList l))).Perm (l.map Prod.fst)) ∧
    jsonDumps (objOfList [("b".toList, .int 1), ("a".toList, .int 2)]) =
      "\x7b\"a\":2,\"b\":1\x7d".toList := by
  refine ⟨?_, ?_, fun n => rfl, fun s2 => rfl, ?_, canon_objOfList_keys, by decide⟩
  · intro sh er di se de si cc l1 l2 hp nd
    exact csv_line_fst_congr_jm
      (congrArg dumpRaw (canon_obj_perm hp nd)) sh er di se de si cc
  · intro sh di se de si jm cc e1 e2 hp nd
    refine csv_line_fst_congr_errs ?_ sh di se de si jm cc
    show jsonDumps (objOfCounts e1) = jsonDumps (objOfCounts e2)
    unfold objOfCounts
    refine congrArg dumpRaw (canon_obj_perm (hp.map _) ?_)
    have : ((e1.map fun kv => (kv.1, JVal.int kv.2)).map Prod.fst) =
        e1.map Prod.fst := by
      rw [List.map_map]
      rfl
    rw [this]
    exact nd
  · intro sh er di se de si jm l1 l2 hp nd
    exact csv_line_fst_congr_cc (ccStep_dict_fst_perm hp nd) sh er di se de si jm

/-- C6 witness: insertion-order independence of `json_metadata` at the
permuted pair `{"b":1,"a":2}` / `{"a":2,"b":1}`. -/
theorem claim_c6_witness :
    (csv_line (.int 1) (.int 0) (.int 0) (.str ['s']) ['d'] ['i']
        (objOfList [("b".toList, .int 1), ("a".toList, .int 2)]) CC.noneV false).fst =
    (csv_line (.int 1) (.int 0) (.int 0) (.str ['s']) ['d'] ['i']
        (objOfList [("a".toList, .int 2), ("b".toList, .int 1)]) CC.noneV false).fst :=
  claim_c6.1 (.int 1) (.int 0) (.int 0) (.str ['s']) ['d'] ['i'] CC.noneV
    [("b".toList, .int 1), ("a".toList, .int 2)]
    [("a".toList, .int 2), ("b".toList, .int 1)]
    (by decide) (by decide)

end CsvOut
